import Mathlib

set_option maxHeartbeats 1000000
set_option linter.unusedVariables false
set_option linter.unreachableTactic false
set_option linter.unusedTactic false
set_option linter.unnecessarySeqFocus false

/-!
Shallow embedding of `xstd::bit_set<N, Block>` (src/include/xstd/bit_set.hpp).

The C++ container is a fixed array `Block m_data[num_storage_blocks]` of
unsigned words of width `W = std::numeric_limits<Block>::digits`.  We model a
container state as a `List Nat` (the word array, index 0 first) together with
the two compile-time parameters `W` (block width, `0 < W`) and `N` (capacity).
All block arithmetic is `Nat` arithmetic reduced mod `2 ^ W` exactly where the
C++ `static_cast<block_type>` truncates.
-/

namespace Xstd

/-- C++ `num_logical_blocks = (M - 1 + block_size) / block_size` over `int`.
For `W ≥ 1` the `Nat` expression `(N + W - 1) / W` takes the same value,
including at `N = 0` where both give `(W - 1) / W = 0`. -/
def num_logical_blocks (W N : Nat) : Nat := (N + W - 1) / W

/-- C++ `num_storage_blocks = std::max(num_logical_blocks, 1)`. -/
def num_storage_blocks (W N : Nat) : Nat := max (num_logical_blocks W N) 1

/-- C++ `num_bits = num_logical_blocks * block_size`. -/
def num_bits (W N : Nat) : Nat := num_logical_blocks W N * W

/-- C++ `num_excess_bits = num_bits - M`. -/
def num_excess_bits (W N : Nat) : Nat := num_bits W N - N

/-- C++ `ones = static_cast<block_type>(-1)`, the all-ones W-bit word. -/
def ones (W : Nat) : Nat := 2 ^ W - 1

/-- C++ `no_excess_bits = static_cast<block_type>(ones << num_excess_bits)`. -/
def no_excess_bits (W N : Nat) : Nat := (ones W <<< num_excess_bits W N) % 2 ^ W

/-- C++ `unit = static_cast<block_type>(static_cast<block_type>(1) << (block_size - 1))`. -/
def unit (W : Nat) : Nat := 1 <<< (W - 1)

/-- C++ `single_bit_mask(n) = static_cast<block_type>(unit >> n)`. -/
def single_bit_mask (W n : Nat) : Nat := unit W >>> n

/-- Bitwise complement `~x` of a W-bit block (`x < 2 ^ W`). -/
def bnot (W x : Nat) : Nat := ones W ^^^ x

/-- C++ `is_valid(n) = 0 <= n && n < M` (the `0 ≤ n` half is automatic on `Nat`). -/
def is_valid (N n : Nat) : Prop := n < N

/-- C++ `is_range(n) = 0 <= n && n <= M`. -/
def is_range (N n : Nat) : Prop := n ≤ N

/-- C++ `which(n)`: `0` when `num_logical_blocks == 1`, else
`num_logical_blocks - 1 - n / block_size`. -/
def which (W N n : Nat) : Nat :=
  if num_logical_blocks W N = 1 then 0 else num_logical_blocks W N - 1 - n / W

/-- C++ `where(n)` (`where` is a Lean keyword): `n` when `num_logical_blocks == 1`,
else `n % block_size`. -/
def where_ (W N n : Nat) : Nat :=
  if num_logical_blocks W N = 1 then n else n % W

/-- Fueled binary popcount; with fuel `W` it is exact on W-bit words,
matching C++ `builtin::popcount`. -/
def popcountAux : Nat → Nat → Nat
  | 0, _ => 0
  | f + 1, x => if x = 0 then 0 else x % 2 + popcountAux f (x / 2)

/-- C++ `builtin::popcount` on a W-bit word. -/
def popcount (W x : Nat) : Nat := popcountAux W x

/-- Fueled binary length: number of binary digits of `x` (`0` for `x = 0`),
exact for `x < 2 ^ fuel`. -/
def bitLenAux : Nat → Nat → Nat
  | 0, _ => 0
  | f + 1, x => if x = 0 then 0 else bitLenAux f (x / 2) + 1

/-- C++ `builtin::clznz(x)`: count of leading zero bits of the W-bit word `x ≠ 0`. -/
def clznz (W x : Nat) : Nat := W - bitLenAux W x

/-- C++ `bit_set::contains(x)`: test `m_data[which(x)] & single_bit_mask(where(x))`
when `num_logical_blocks >= 1`, otherwise `false`. -/
def contains (W N : Nat) (data : List Nat) (x : Nat) : Bool :=
  if 1 ≤ num_logical_blocks W N then
    decide (data.getD (which W N x) 0 &&& single_bit_mask W (where_ W N x) ≠ 0)
  else false

/-- C++ `bit_set::insert(x)`: `m_data[which(x)] |= single_bit_mask(where(x))` when
`num_logical_blocks >= 1`; returns `{ { this, x }, true }` — the boolean is the
literal `true`, modelled as the second component. -/
def insert (W N : Nat) (data : List Nat) (x : Nat) : List Nat × Bool :=
  (if 1 ≤ num_logical_blocks W N then
     data.set (which W N x)
       (data.getD (which W N x) 0 ||| single_bit_mask W (where_ W N x))
   else data,
   true)

/-- C++ `bit_set::erase(key)`: `m_data[which(x)] &= ~single_bit_mask(where(x))` when
`num_logical_blocks >= 1`; returns the literal `1`, modelled as the second component. -/
def erase (W N : Nat) (data : List Nat) (x : Nat) : List Nat × Nat :=
  (if 1 ≤ num_logical_blocks W N then
     data.set (which W N x)
       (data.getD (which W N x) 0 &&& bnot W (single_bit_mask W (where_ W N x)))
   else data,
   1)

/-- C++ `bit_set::replace(x)`: `m_data[which(x)] ^= single_bit_mask(where(x))`. -/
def replace (W N : Nat) (data : List Nat) (x : Nat) : List Nat :=
  if 1 ≤ num_logical_blocks W N then
    data.set (which W N x)
      (data.getD (which W N x) 0 ^^^ single_bit_mask W (where_ W N x))
  else data

/-- Well-formedness of a modelled state: the word array has exactly
`num_storage_blocks` entries and every word fits in `W` bits. -/
def WF (W N : Nat) (data : List Nat) : Prop :=
  data.length = num_storage_blocks W N ∧ ∀ b ∈ data, b < 2 ^ W

/-- Invariant (a) of the spec: the `num_excess_bits` unused low-order bits of
storage word 0 are zero; additionally, when `num_logical_blocks = 0` the single
(zero-initialised, never written) storage word is zero. -/
def Inv (W N : Nat) (data : List Nat) : Prop :=
  data.getD 0 0 % 2 ^ num_excess_bits W N = 0 ∧
  (num_logical_blocks W N = 0 → data.getD 0 0 = 0)

/-- The default-constructed container: zero-initialised storage. -/
def dflt (W N : Nat) : List Nat := List.replicate (num_storage_blocks W N) 0

/-- Rebuild a word array index-wise: entry `i` becomes `f i (data.getD i 0)`.
Used to model the C++ word loops, each of which writes every slot at most once
reading only the pre-loop values (verified per operation below). -/
def mapIdxD (data : List Nat) (f : Nat → Nat → Nat) : List Nat :=
  (List.range data.length).map fun i => f i (data.getD i 0)

/-- C++ `bit_set::clear_excess_bits()`: `m_data[0] &= no_excess_bits` when
`num_excess_bits != 0`. -/
def clear_excess_bits (W N : Nat) (data : List Nat) : List Nat :=
  if num_excess_bits W N ≠ 0 then
    data.set 0 (data.getD 0 0 &&& no_excess_bits W N)
  else data

/-- C++ `bit_set::clear()`: zero all logical blocks (branches on 1 / 2 / ≥3). -/
def clear (W N : Nat) (data : List Nat) : List Nat :=
  let L := num_logical_blocks W N
  if L = 1 then data.set 0 0
  else if L = 2 then (data.set 0 0).set 1 0
  else if 3 ≤ L then mapIdxD data fun i x => if i < L then 0 else x
  else data

/-- C++ `bit_set::fill()`: all blocks to `ones`, except block 0 to
`no_excess_bits` when `num_excess_bits != 0` (branches on 1 / 2 / ≥3). -/
def fill (W N : Nat) (data : List Nat) : List Nat :=
  let L := num_logical_blocks W N
  if num_excess_bits W N = 0 then
    if L = 1 then data.set 0 (ones W)
    else if L = 2 then ((data.set 0 (ones W)).set 1 (ones W))
    else if 3 ≤ L then mapIdxD data fun i x => if i < L then ones W else x
    else data
  else
    if L = 1 then data.set 0 (no_excess_bits W N)
    else if L = 2 then ((data.set 0 (no_excess_bits W N)).set 1 (ones W))
    else if 3 ≤ L then
      mapIdxD data fun i x =>
        if i = 0 then no_excess_bits W N else if i < L then ones W else x
    else data

/-- C++ `bit_set::complement()`: `~` every storage block, then
`clear_excess_bits()` (branches on 1 / 2 / ≥3; the ≥3 loop ranges over the
whole storage array). -/
def complement (W N : Nat) (data : List Nat) : List Nat :=
  let L := num_logical_blocks W N
  clear_excess_bits W N
    (if L = 1 then data.set 0 (bnot W (data.getD 0 0))
     else if L = 2 then
       ((data.set 0 (bnot W (data.getD 0 0))).set 1 (bnot W (data.getD 1 0)))
     else if 3 ≤ L then mapIdxD data fun _ x => bnot W x
     else data)

/-- C++ `bit_set::operator&=`: blockwise AND with `other` (branches on 1 / 2 / ≥3). -/
def and_assign (W N : Nat) (data other : List Nat) : List Nat :=
  let L := num_logical_blocks W N
  if L = 1 then data.set 0 (data.getD 0 0 &&& other.getD 0 0)
  else if L = 2 then
    ((data.set 0 (data.getD 0 0 &&& other.getD 0 0)).set 1
      (data.getD 1 0 &&& other.getD 1 0))
  else if 3 ≤ L then
    mapIdxD data fun i x => if i < L then x &&& other.getD i 0 else x
  else data

/-- C++ `bit_set::operator|=`: blockwise OR with `other`. -/
def or_assign (W N : Nat) (data other : List Nat) : List Nat :=
  let L := num_logical_blocks W N
  if L = 1 then data.set 0 (data.getD 0 0 ||| other.getD 0 0)
  else if L = 2 then
    ((data.set 0 (data.getD 0 0 ||| other.getD 0 0)).set 1
      (data.getD 1 0 ||| other.getD 1 0))
  else if 3 ≤ L then
    mapIdxD data fun i x => if i < L then x ||| other.getD i 0 else x
  else data

/-- C++ `bit_set::operator^=`: blockwise XOR with `other`. -/
def xor_assign (W N : Nat) (data other : List Nat) : List Nat :=
  let L := num_logical_blocks W N
  if L = 1 then data.set 0 (data.getD 0 0 ^^^ other.getD 0 0)
  else if L = 2 then
    ((data.set 0 (data.getD 0 0 ^^^ other.getD 0 0)).set 1
      (data.getD 1 0 ^^^ other.getD 1 0))
  else if 3 ≤ L then
    mapIdxD data fun i x => if i < L then x ^^^ other.getD i 0 else x
  else data

/-- C++ `bit_set::operator-=`: blockwise AND-NOT with `other`. -/
def diff_assign (W N : Nat) (data other : List Nat) : List Nat :=
  let L := num_logical_blocks W N
  if L = 1 then data.set 0 (data.getD 0 0 &&& bnot W (other.getD 0 0))
  else if L = 2 then
    ((data.set 0 (data.getD 0 0 &&& bnot W (other.getD 0 0))).set 1
      (data.getD 1 0 &&& bnot W (other.getD 1 0)))
  else if 3 ≤ L then
    mapIdxD data fun i x => if i < L then x &&& bnot W (other.getD i 0) else x
  else data

/-- C++ `bit_set::operator<<=(n)`.  One block: `m_data[0] >>= n` then
`clear_excess_bits()`.  Two or more blocks: early `return *this` on `n == 0`
(skipping the excess-bit clearing), otherwise split `n` into `n_block` whole
blocks and a remainder `R_shift`; each destination slot is rebuilt from the
one or two source slots (the loops read only pre-loop values at strictly
larger indices, so the rebuild is index-wise), vacated tail slots are
zero-filled, and excess bits are cleared. -/
def shl_assign (W N : Nat) (data : List Nat) (n : Nat) : List Nat :=
  let L := num_logical_blocks W N
  if L = 1 then clear_excess_bits W N (data.set 0 (data.getD 0 0 >>> n))
  else if 2 ≤ L then
    if n = 0 then data
    else
      let n_block := n / W
      let R_shift := n % W
      let body :=
        if R_shift = 0 then
          mapIdxD data fun i _ => if i < L - n_block then data.getD (i + n_block) 0 else 0
        else
          let L_shift := W - R_shift
          mapIdxD data fun i _ =>
            if i < L - 1 - n_block then
              (data.getD (i + n_block) 0 >>> R_shift) |||
                ((data.getD (i + n_block + 1) 0 <<< L_shift) % 2 ^ W)
            else if i = L - 1 - n_block then data.getD (L - 1) 0 >>> R_shift
            else 0
      clear_excess_bits W N body
  else clear_excess_bits W N data

/-- C++ `bit_set::operator>>=(n)` (no excess-bit clearing).  One block:
`m_data[0] <<= n`.  Two or more blocks: early return on `n == 0`, otherwise
the mirror image of `operator<<=` (the descending loop reads only pre-loop
values at strictly smaller indices, so the rebuild is index-wise). -/
def shr_assign (W N : Nat) (data : List Nat) (n : Nat) : List Nat :=
  let L := num_logical_blocks W N
  if L = 1 then data.set 0 ((data.getD 0 0 <<< n) % 2 ^ W)
  else if 2 ≤ L then
    if n = 0 then data
    else
      let n_block := n / W
      let L_shift := n % W
      if L_shift = 0 then
        mapIdxD data fun i _ => if i < n_block then 0 else data.getD (i - n_block) 0
      else
        let R_shift := W - L_shift
        mapIdxD data fun i _ =>
          if i < n_block then 0
          else if i = n_block then (data.getD 0 0 <<< L_shift) % 2 ^ W
          else
            ((data.getD (i - n_block) 0 <<< L_shift) % 2 ^ W) |||
              (data.getD (i - n_block - 1) 0 >>> R_shift)
  else data

/-- C++ `bit_set::operator==`: block-array equality (branches on 0 / ≤1 / 2 / ≥3). -/
def beq (W N : Nat) (data other : List Nat) : Bool :=
  let L := num_logical_blocks W N
  if L = 0 then true
  else if L ≤ 1 then data.getD 0 0 == other.getD 0 0
  else if L = 2 then
    data.getD 0 0 == other.getD 0 0 && data.getD 1 0 == other.getD 1 0
  else data == other

/-- The fallback `detail::lexicographical_compare_three_way` of the source,
specialised to word lists. -/
def lexCmp3 : List Nat → List Nat → Ordering
  | [], [] => .eq
  | [], _ :: _ => .lt
  | _ :: _, [] => .gt
  | x :: xs, y :: ys => match compare x y with
    | .eq => lexCmp3 xs ys
    | c => c

/-- C++ `bit_set::operator<=>`: `equal` when `num_logical_blocks == 0`;
`other.m_data[0] <=> m_data[0]` for one block;
`tie(other[1], other[0]) <=> tie(this[1], this[0])` for two;
reversed-array lexicographic comparison of `other` against `this` for ≥3. -/
def cmp (W N : Nat) (data other : List Nat) : Ordering :=
  let L := num_logical_blocks W N
  if L = 0 then .eq
  else if L ≤ 1 then compare (other.getD 0 0) (data.getD 0 0)
  else if L = 2 then
    match compare (other.getD 1 0) (data.getD 1 0) with
    | .eq => compare (other.getD 0 0) (data.getD 0 0)
    | c => c
  else lexCmp3 other.reverse data.reverse

/-- C++ `bit_set::empty()` (branches on 0 / 1 / 2 / ≥3). -/
def empty (W N : Nat) (data : List Nat) : Bool :=
  let L := num_logical_blocks W N
  if L = 0 then true
  else if L = 1 then data.getD 0 0 == 0
  else if L = 2 then !(data.getD 0 0 != 0 || data.getD 1 0 != 0)
  else data.all fun b => b == 0

/-- C++ `bit_set::full()`: every representable bit set; block 0 is compared
against `no_excess_bits` when `num_excess_bits != 0` (the final `else` branch
is unreachable: `num_excess_bits != 0` forces `num_logical_blocks >= 1`). -/
def full (W N : Nat) (data : List Nat) : Bool :=
  let L := num_logical_blocks W N
  if num_excess_bits W N = 0 then
    if L = 0 then true
    else if L = 1 then data.getD 0 0 == ones W
    else if L = 2 then
      data.getD 0 0 == ones W && data.getD 1 0 == ones W
    else data.all fun b => b == ones W
  else
    if L = 1 then data.getD 0 0 == no_excess_bits W N
    else if L = 2 then
      data.getD 0 0 == no_excess_bits W N && data.getD 1 0 == ones W
    else if 3 ≤ L then
      data.getD 0 0 == no_excess_bits W N &&
        (data.drop 1).all fun b => b == ones W
    else false

/-- C++ `bit_set::ssize()`: popcount summed over the blocks (branches on 0 / 1 / 2 / ≥3). -/
def ssize (W N : Nat) (data : List Nat) : Nat :=
  let L := num_logical_blocks W N
  if L = 0 then 0
  else if L = 1 then popcount W (data.getD 0 0)
  else if L = 2 then popcount W (data.getD 0 0) + popcount W (data.getD 1 0)
  else data.foldl (fun sum b => sum + popcount W b) 0

/-- The descending word loop shared by `find_first` and `find_next`:
`for (; i >= 0; --i, n += block_size) if (m_data[i]) return n + clznz(m_data[i]);`
returns `none` when the loop runs off the array (the caller then returns `M`). -/
def scanDown (W : Nat) (data : List Nat) : Nat → Nat → Option Nat
  | 0, n =>
    if data.getD 0 0 ≠ 0 then some (n + clznz W (data.getD 0 0)) else none
  | i + 1, n =>
    if data.getD (i + 1) 0 ≠ 0 then some (n + clznz W (data.getD (i + 1) 0))
    else scanDown W data i (n + W)

/-- C++ `bit_set::find_first()`. -/
def find_first (W N : Nat) (data : List Nat) : Nat :=
  let L := num_logical_blocks W N
  if L = 1 then
    if data.getD 0 0 ≠ 0 then clznz W (data.getD 0 0) else N
  else if 2 ≤ L then
    match scanDown W data (L - 1) 0 with
    | some r => r
    | none => N
  else N

/-- C++ `bit_set::find_next(n)`: `M` at `n == M`; one block: scan
`m_data[0] << n`; several blocks: scan the remainder of `n`'s block when the
offset is nonzero (`--i` past slot 0 leaves the loop unentered, hence `M`),
then the descending word loop. -/
def find_next (W N : Nat) (data : List Nat) (n : Nat) : Nat :=
  let L := num_logical_blocks W N
  if n = N then N
  else if L = 1 then
    if (data.getD 0 0 <<< n) % 2 ^ W ≠ 0 then
      n + clznz W ((data.getD 0 0 <<< n) % 2 ^ W)
    else N
  else if 2 ≤ L then
    let i := which W N n
    let offset := where_ W N n
    if offset ≠ 0 then
      if (data.getD i 0 <<< offset) % 2 ^ W ≠ 0 then
        n + clznz W ((data.getD i 0 <<< offset) % 2 ^ W)
      else if i = 0 then N
      else
        match scanDown W data (i - 1) (n + (W - offset)) with
        | some r => r
        | none => N
    else
      match scanDown W data i n with
      | some r => r
      | none => N
  else N

/-- Forward iteration: starting from position `pos` (as held by a
`proxy_iterator`), repeatedly emit the position and step with
`operator++` (`m_value = find_next(m_value + 1)`) until the `end` position
`M` is reached.  `fuel` bounds the recursion; `fuel = N` always suffices. -/
def iter_from (W N : Nat) (data : List Nat) : Nat → Nat → List Nat
  | 0, pos => if pos = N then [] else [pos]
  | f + 1, pos =>
    if pos = N then []
    else pos :: iter_from W N data f (find_next W N data (pos + 1))

/-- The ascending value sequence produced by iterating `begin()` to `end()`. -/
def to_list (W N : Nat) (data : List Nat) : List Nat :=
  iter_from W N data N (find_first W N data)

/-- C++ ranged `insert(first, last)`: insert each value in order. -/
def insert_list (W N : Nat) (data : List Nat) (l : List Nat) : List Nat :=
  l.foldl (fun s x => (insert W N s x).1) data

/-- The ordering the specification describes for `operator<=>`: the
lexicographic three-way comparison of the two ascending element sequences,
exactly as `lexicographical_compare_three_way` over `std::set` iterators
compares sorted integer sequences. -/
def spec_sequence_compare (W N : Nat) (data other : List Nat) : Ordering :=
  lexCmp3 (to_list W N data) (to_list W N other)

/-! ### Arithmetic facts about the block layout -/

theorem L_succ_pred (hW : 0 < W) (hN : 0 < N) :
    num_logical_blocks W N = (N - 1) / W + 1 := by
  unfold num_logical_blocks
  have h1 : N + W - 1 = (N - 1) + W := by omega
  rw [h1, Nat.add_div_right _ hW]

theorem le_L_mul_W (hW : 0 < W) : N ≤ num_logical_blocks W N * W := by
  rcases Nat.eq_zero_or_pos N with hN | hN
  · simp [hN]
  · rw [L_succ_pred hW hN, Nat.add_mul, Nat.one_mul]
    have h1 := Nat.div_add_mod (N - 1) W
    have h2 := Nat.mod_lt (N - 1) hW
    calc N = (N - 1) + 1 := by omega
    _ ≤ W * ((N - 1) / W) + (N - 1) % W + 1 := by omega
    _ ≤ (N - 1) / W * W + W := by rw [Nat.mul_comm]; omega

theorem L_mul_W_le (hW : 0 < W) (hN : 0 < N) :
    num_logical_blocks W N * W ≤ N - 1 + W := by
  rw [L_succ_pred hW hN, Nat.add_mul, Nat.one_mul]
  have := Nat.div_mul_le_self (N - 1) W
  omega

theorem num_excess_bits_lt (hW : 0 < W) : num_excess_bits W N < W := by
  unfold num_excess_bits num_bits
  rcases Nat.eq_zero_or_pos N with hN | hN
  · subst hN
    have h1 : num_logical_blocks W 0 = 0 := by
      unfold num_logical_blocks
      exact Nat.div_eq_of_lt (by omega)
    simp [h1, hW]
  · have := L_mul_W_le hW hN
    omega

theorem L_eq_zero_iff (hW : 0 < W) : num_logical_blocks W N = 0 ↔ N = 0 := by
  constructor
  · intro h
    have h1 := le_L_mul_W (W := W) (N := N) hW
    rw [h] at h1
    simpa using h1
  · intro h
    subst h
    unfold num_logical_blocks
    exact Nat.div_eq_of_lt (by omega)

theorem L_pos (hW : 0 < W) (hN : 0 < N) : 1 ≤ num_logical_blocks W N := by
  have := (L_eq_zero_iff (W := W) (N := N) hW).1
  omega

theorem N_le_W_of_L_le_one (hW : 0 < W) (hL : num_logical_blocks W N ≤ 1) :
    N ≤ W := by
  have h1 := le_L_mul_W (W := W) (N := N) hW
  have h2 : num_logical_blocks W N * W ≤ 1 * W := Nat.mul_le_mul_right W hL
  omega

theorem L_eq_one_of_le_W (hW : 0 < W) (hN : 0 < N) (hNW : N ≤ W) :
    num_logical_blocks W N = 1 := by
  rw [L_succ_pred hW hN]
  have : (N - 1) / W = 0 := Nat.div_eq_of_lt (by omega)
  omega

theorem which_eq (hW : 0 < W) (hx : x < N) :
    which W N x = num_logical_blocks W N - 1 - x / W := by
  unfold which
  split
  · next h =>
    have hNW : N ≤ W := N_le_W_of_L_le_one hW (by omega)
    have : x / W = 0 := Nat.div_eq_of_lt (by omega)
    omega
  · rfl

theorem where_eq (hW : 0 < W) (hx : x < N) : where_ W N x = x % W := by
  unfold where_
  split
  · next h =>
    have hNW : N ≤ W := N_le_W_of_L_le_one hW (by omega)
    exact (Nat.mod_eq_of_lt (by omega)).symm
  · rfl

theorem div_W_lt_L (hW : 0 < W) (hx : x < N) : x / W < num_logical_blocks W N := by
  have hN : 0 < N := by omega
  rw [L_succ_pred hW hN]
  have : x / W ≤ (N - 1) / W := Nat.div_le_div_right (by omega)
  omega

theorem which_lt (hW : 0 < W) (hx : x < N) :
    which W N x < num_logical_blocks W N := by
  rw [which_eq hW hx]
  have h1 := L_pos hW (by omega : 0 < N)
  exact Nat.lt_of_le_of_lt (Nat.sub_le _ _) (by omega)

/-- Values decompose uniquely as slot/offset: the slot of `v` is
`L - 1 - v / W` and its bit index inside the word is `W - 1 - v % W`. -/
theorem slot_offset_inj (hW : 0 < W) (hx : x < N) (hy : y < N)
    (hs : num_logical_blocks W N - 1 - x / W = num_logical_blocks W N - 1 - y / W)
    (ho : W - 1 - x % W = W - 1 - y % W) : x = y := by
  have hx1 := div_W_lt_L hW hx
  have hy1 := div_W_lt_L hW hy
  have hd : x / W = y / W := by omega
  have hxm := Nat.mod_lt x hW
  have hym := Nat.mod_lt y hW
  have hm : x % W = y % W := by omega
  have h1 := Nat.div_add_mod x W
  have h2 := Nat.div_add_mod y W
  rw [hd, hm] at h1
  omega

/-! ### Bit-level helpers -/

theorem unit_eq (hW : 0 < W) : unit W = 2 ^ (W - 1) := by
  unfold unit
  rw [Nat.shiftLeft_eq, Nat.one_mul]

theorem single_bit_mask_eq (hW : 0 < W) (ho : o < W) :
    single_bit_mask W o = 2 ^ (W - 1 - o) := by
  unfold single_bit_mask
  rw [unit_eq hW, Nat.shiftRight_eq_div_pow, Nat.pow_div (by omega) (by omega)]

theorem ones_lt (W : Nat) : ones W < 2 ^ W := by
  unfold ones
  have := Nat.two_pow_pos W
  omega

theorem testBit_ones (W j : Nat) : (ones W).testBit j = decide (j < W) := by
  unfold ones
  exact Nat.testBit_two_pow_sub_one W j

theorem bnot_lt (hx : x < 2 ^ W) : bnot W x < 2 ^ W :=
  Nat.xor_lt_two_pow (ones_lt W) hx

theorem testBit_bnot (hx : x < 2 ^ W) :
    (bnot W x).testBit j = (decide (j < W) && !x.testBit j) := by
  unfold bnot
  rw [Nat.testBit_xor, testBit_ones]
  by_cases h : j < W
  · simp [h]
  · have hx2 : x.testBit j = false :=
      Nat.testBit_lt_two_pow
        (Nat.lt_of_lt_of_le hx (Nat.pow_le_pow_right (by omega) (by omega)))
    simp [h, hx2]

theorem and_two_pow_ne_zero_iff (x k : Nat) :
    (x &&& 2 ^ k ≠ 0) ↔ x.testBit k = true := by
  rw [Nat.and_two_pow]
  have h2 := Nat.two_pow_pos k
  cases h : x.testBit k <;> simp [h] <;> omega

theorem testBit_no_excess_bits (hW : 0 < W) (j : Nat) :
    (no_excess_bits W N).testBit j =
      (decide (num_excess_bits W N ≤ j) && decide (j < W)) := by
  have hE := num_excess_bits_lt (W := W) (N := N) hW
  unfold no_excess_bits
  rw [Nat.testBit_mod_two_pow, Nat.testBit_shiftLeft, testBit_ones]
  by_cases h1 : j < W <;> by_cases h2 : num_excess_bits W N ≤ j <;>
    simp [h1, h2] <;> omega

theorem no_excess_bits_lt (W N : Nat) : no_excess_bits W N < 2 ^ W := by
  unfold no_excess_bits
  exact Nat.mod_lt _ (Nat.two_pow_pos W)

/-- `x % 2 ^ E = 0` says exactly that the low `E` bits of `x` are clear. -/
theorem mod_two_pow_eq_zero_iff_testBit (x E : Nat) :
    x % 2 ^ E = 0 ↔ ∀ j < E, x.testBit j = false := by
  constructor
  · intro h j hj
    have h1 : (x % 2 ^ E).testBit j = false := by rw [h]; exact Nat.zero_testBit j
    rw [Nat.testBit_mod_two_pow] at h1
    simpa [hj] using h1
  · intro h
    have h1 : ∀ j, (x % 2 ^ E).testBit j = false := by
      intro j
      rw [Nat.testBit_mod_two_pow]
      by_cases hj : j < E
      · simp [hj, h j hj]
      · simp [hj]
    have := Nat.eq_of_testBit_eq (x := x % 2 ^ E) (y := 0)
      (fun j => by rw [h1 j, Nat.zero_testBit])
    exact this

/-! ### List access helpers -/

theorem getD_set (l : List Nat) (i j v : Nat) :
    (l.set i v).getD j 0 = if i = j ∧ j < l.length then v else l.getD j 0 := by
  rw [List.getD_eq_getElem?_getD, List.getD_eq_getElem?_getD, List.getElem?_set]
  by_cases h1 : i = j
  · subst h1
    by_cases h2 : i < l.length
    · simp [h2]
    · simp [h2, List.getElem?_eq_none (show l.length ≤ i by omega)]
  · simp [h1]

theorem getD_eq_zero_of_le (l : List Nat) (j : Nat) (h : l.length ≤ j) :
    l.getD j 0 = 0 := by
  rw [List.getD_eq_getElem?_getD, List.getElem?_eq_none (by omega)]
  rfl

theorem mapIdxD_length (l : List Nat) (f : Nat → Nat → Nat) :
    (mapIdxD l f).length = l.length := by
  unfold mapIdxD
  rw [List.length_map, List.length_range]

theorem mapIdxD_getD (l : List Nat) (f : Nat → Nat → Nat) (i : Nat) :
    (mapIdxD l f).getD i 0 = if i < l.length then f i (l.getD i 0) else 0 := by
  unfold mapIdxD
  by_cases h : i < l.length
  · rw [List.getD_eq_getElem?_getD, List.getElem?_map, List.getElem?_range h]
    simp [h]
  · rw [getD_eq_zero_of_le _ _ (by rw [List.length_map, List.length_range]; omega)]
    simp [h]

theorem length_replicate_storage (W N : Nat) :
    (dflt W N).length = num_storage_blocks W N := by
  unfold dflt
  exact List.length_replicate _ _

theorem dflt_getD (W N j : Nat) : (dflt W N).getD j 0 = 0 := by
  unfold dflt
  by_cases h : j < num_storage_blocks W N
  · rw [List.getD_eq_getElem?_getD, List.getElem?_replicate]
    simp [h]
  · exact getD_eq_zero_of_le _ _ (by rw [List.length_replicate]; omega)

theorem ext_getD (l1 l2 : List Nat) (hlen : l1.length = l2.length)
    (h : ∀ i < l1.length, l1.getD i 0 = l2.getD i 0) : l1 = l2 := by
  apply List.ext_getElem hlen
  intro i h1 h2
  have := h i h1
  rwa [List.getD_eq_getElem?_getD, List.getD_eq_getElem?_getD,
    List.getElem?_eq_getElem h1, List.getElem?_eq_getElem h2] at this

theorem set_getD_self (l : List Nat) (i : Nat) : l.set i (l.getD i 0) = l := by
  apply ext_getD _ _ (List.length_set l i _)
  intro j hj
  rw [getD_set]
  split
  · next h => rw [← h.1]
  · rfl

theorem two_pow_lt_two_pow (h : a < b) : 2 ^ a < 2 ^ b :=
  Nat.pow_lt_pow_right (by omega) h

theorem WF_getD_lt {W N : Nat} {data : List Nat} (hWF : WF W N data) (i : Nat) :
    data.getD i 0 < 2 ^ W := by
  rcases Nat.lt_or_ge i data.length with h | h
  · rw [List.getD_eq_getElem?_getD, List.getElem?_eq_getElem h]
    simpa using hWF.2 _ (List.getElem_mem h)
  · rw [getD_eq_zero_of_le _ _ h]
    exact Nat.two_pow_pos W

/-! ### Membership as a bit test -/

/-- `contains` reads exactly one bit: for a valid `x`, membership of `x` is
bit `W - 1 - x % W` (LSB-numbered) of storage word `L - 1 - x / W`. -/
theorem contains_eq_testBit (hW : 0 < W) (hx : x < N) (data : List Nat) :
    contains W N data x =
      (data.getD (num_logical_blocks W N - 1 - x / W) 0).testBit (W - 1 - x % W) := by
  unfold contains
  have hN : 0 < N := by omega
  have hL := L_pos hW hN
  rw [if_pos hL, which_eq hW hx, where_eq hW hx,
    single_bit_mask_eq hW (Nat.mod_lt x hW)]
  simp only [ne_eq, Decidable.not_not, and_two_pow_ne_zero_iff]
  cases h : (data.getD (num_logical_blocks W N - 1 - x / W) 0).testBit (W - 1 - x % W) <;>
    simp [h]


/-! ### Invariant machinery: excess bits stay clear -/

theorem Inv_testBit (hInv : Inv W N data) :
    ∀ j < num_excess_bits W N, (data.getD 0 0).testBit j = false :=
  (mod_two_pow_eq_zero_iff_testBit _ _).1 hInv.1

theorem Inv_of_word0 (h1 : ∀ j < num_excess_bits W N, (data.getD 0 0).testBit j = false)
    (h2 : num_logical_blocks W N = 0 → data.getD 0 0 = 0) : Inv W N data :=
  ⟨(mod_two_pow_eq_zero_iff_testBit _ _).2 h1, h2⟩

theorem excess_eq_zero_of_L_eq_zero (hL : num_logical_blocks W N = 0) :
    num_excess_bits W N = 0 := by
  unfold num_excess_bits num_bits
  rw [hL]
  simp

theorem L_pos_of_excess_ne (hE : num_excess_bits W N ≠ 0) :
    1 ≤ num_logical_blocks W N := by
  rcases Nat.eq_zero_or_pos (num_logical_blocks W N) with h | h
  · exact absurd (excess_eq_zero_of_L_eq_zero h) hE
  · omega

/-- After `clear_excess_bits` the invariant holds, provided it already held in
the (no-op) case `num_excess_bits = 0`. -/
theorem clear_excess_bits_Inv (hW : 0 < W)
    (h : num_excess_bits W N = 0 → Inv W N data) :
    Inv W N (clear_excess_bits W N data) := by
  unfold clear_excess_bits
  by_cases hE : num_excess_bits W N ≠ 0
  · rw [if_pos hE]
    refine Inv_of_word0 ?_ ?_
    · intro j hj
      rw [getD_set]
      split
      · rw [Nat.testBit_and, testBit_no_excess_bits hW]
        have : ¬num_excess_bits W N ≤ j := by omega
        simp [this]
      · next hc =>
        have hlen : data.length = 0 := by
          rcases Nat.eq_zero_or_pos data.length with h0 | h0
          · exact h0
          · exact absurd ⟨rfl, h0⟩ hc
        rw [getD_eq_zero_of_le _ _ (by omega)]
        exact Nat.zero_testBit j
    · intro hL0
      exact absurd (excess_eq_zero_of_L_eq_zero hL0) hE
  · rw [if_neg hE]
    exact h (by omega)

/-- When a value `x < N` lives in storage word 0 (`which x = 0`), its bit index
`W - 1 - x % W` lies at or above `num_excess_bits`: valid values never touch
the excess bits. -/
theorem touched_bit_ge_excess (hW : 0 < W) (hx : x < N)
    (h0 : num_logical_blocks W N - 1 - x / W = 0) :
    num_excess_bits W N ≤ W - 1 - x % W ∧ W - 1 - x % W < W := by
  have hN : 0 < N := by omega
  have hL := L_pos hW hN
  have hxW := div_W_lt_L hW hx
  have hdivW : x / W = num_logical_blocks W N - 1 := by omega
  have hdiv := Nat.div_add_mod x W
  have hmod := Nat.mod_lt x hW
  have hmul : W * num_logical_blocks W N = W * (num_logical_blocks W N - 1) + W := by
    conv_lhs => rw [show num_logical_blocks W N = (num_logical_blocks W N - 1) + 1 by omega]
    rw [Nat.mul_succ]
  have hle := le_L_mul_W (W := W) (N := N) hW
  rw [Nat.mul_comm] at hle
  have hEdef : num_excess_bits W N = num_logical_blocks W N * W - N := rfl
  rw [Nat.mul_comm] at hEdef
  rw [hdivW] at hdiv
  omega

theorem insert_Inv (hW : 0 < W) (hx : x < N) (hInv : Inv W N data) :
    Inv W N (insert W N data x).1 := by
  have hN : 0 < N := by omega
  have hL := L_pos hW hN
  unfold insert
  simp only [if_pos hL]
  refine Inv_of_word0 ?_ (by intro h; omega)
  intro j hj
  rw [getD_set]
  split
  · next hc =>
    rw [which_eq hW hx] at hc
    have hk := touched_bit_ge_excess hW hx hc.1
    rw [Nat.testBit_or, which_eq hW hx, hc.1, Inv_testBit hInv j hj,
      where_eq hW hx, single_bit_mask_eq hW (Nat.mod_lt x hW),
      Nat.testBit_two_pow_of_ne (by omega)]
    rfl
  · exact Inv_testBit hInv j hj

theorem erase_Inv (hW : 0 < W) (hx : x < N) (hInv : Inv W N data) :
    Inv W N (erase W N data x).1 := by
  have hN : 0 < N := by omega
  have hL := L_pos hW hN
  unfold erase
  simp only [if_pos hL]
  refine Inv_of_word0 ?_ (by intro h; omega)
  intro j hj
  rw [getD_set]
  split
  · next hc =>
    rw [which_eq hW hx] at hc
    rw [Nat.testBit_and, which_eq hW hx, hc.1, Inv_testBit hInv j hj]
    rfl
  · exact Inv_testBit hInv j hj

theorem replace_Inv (hW : 0 < W) (hx : x < N) (hInv : Inv W N data) :
    Inv W N (replace W N data x) := by
  have hN : 0 < N := by omega
  have hL := L_pos hW hN
  unfold replace
  simp only [if_pos hL]
  refine Inv_of_word0 ?_ (by intro h; omega)
  intro j hj
  rw [getD_set]
  split
  · next hc =>
    rw [which_eq hW hx] at hc
    have hk := touched_bit_ge_excess hW hx hc.1
    rw [Nat.testBit_xor, which_eq hW hx, hc.1, Inv_testBit hInv j hj,
      where_eq hW hx, single_bit_mask_eq hW (Nat.mod_lt x hW),
      Nat.testBit_two_pow_of_ne (by omega)]
    rfl
  · exact Inv_testBit hInv j hj

theorem clear_Inv (hW : 0 < W) (hInv : Inv W N data) :
    Inv W N (clear W N data) := by
  unfold clear
  refine Inv_of_word0 ?_ ?_ <;> dsimp only
  · intro j hj
    split
    · rw [getD_set]
      split
      · exact Nat.zero_testBit j
      · exact Inv_testBit hInv j hj
    · split
      · rw [getD_set, getD_set]
        split
        · exact Nat.zero_testBit j
        · split
          · exact Nat.zero_testBit j
          · exact Inv_testBit hInv j hj
      · split
        · next hL3 =>
          rw [mapIdxD_getD]
          split
          · next h0 =>
            rw [if_pos (by omega)]
            exact Nat.zero_testBit j
          · exact Nat.zero_testBit j
        · exact Inv_testBit hInv j hj
  · intro hL0
    split
    · omega
    · split
      · omega
      · split
        · omega
        · exact hInv.2 hL0

theorem fill_Inv (hW : 0 < W) (hInv : Inv W N data) :
    Inv W N (fill W N data) := by
  unfold fill
  by_cases hE : num_excess_bits W N = 0
  · rw [if_pos hE]
    refine Inv_of_word0 ?_ ?_ <;> dsimp only
    · intro j hj
      omega
    · intro hL0
      split
      · omega
      · split
        · omega
        · split
          · omega
          · exact hInv.2 hL0
  · rw [if_neg hE]
    have hL := L_pos_of_excess_ne hE
    have hbit : ∀ j < num_excess_bits W N, (no_excess_bits W N).testBit j = false := by
      intro j hj
      rw [testBit_no_excess_bits hW]
      have : ¬num_excess_bits W N ≤ j := by omega
      simp [this]
    refine Inv_of_word0 ?_ (by intro h; omega)
    dsimp only
    intro j hj
    split
    · rw [getD_set]
      split
      · exact hbit j hj
      · exact Inv_testBit hInv j hj
    · split
      · rw [getD_set, getD_set]
        split
        · next h1 => omega
        · split
          · exact hbit j hj
          · exact Inv_testBit hInv j hj
      · split
        · rw [mapIdxD_getD]
          split
          · rw [if_pos rfl]
            exact hbit j hj
          · exact Nat.zero_testBit j
        · exact Inv_testBit hInv j hj

theorem complement_Inv (hW : 0 < W) (hInv : Inv W N data) :
    Inv W N (complement W N data) := by
  unfold complement
  apply clear_excess_bits_Inv hW
  intro hE
  -- here num_excess_bits = 0, so only the L = 0 conjunct needs data untouched
  refine Inv_of_word0 (by intro j hj; omega) ?_
  intro hL0
  dsimp only
  split
  · omega
  · split
    · omega
    · split
      · omega
      · exact hInv.2 hL0

theorem and_Inv (hW : 0 < W) (hInv : Inv W N data) :
    Inv W N (and_assign W N data other) := by
  unfold and_assign
  refine Inv_of_word0 ?_ ?_ <;> dsimp only
  · intro j hj
    have hb := Inv_testBit hInv j hj
    split
    · rw [getD_set]
      split
      · rw [Nat.testBit_and, hb]
        rfl
      · exact hb
    · split
      · rw [getD_set, getD_set]
        split
        · next h1 => omega
        · split
          · rw [Nat.testBit_and, hb]
            rfl
          · exact hb
      · split
        · rw [mapIdxD_getD]
          split
          · split
            · rw [Nat.testBit_and, hb]
              rfl
            · exact hb
          · exact Nat.zero_testBit j
        · exact hb
  · intro hL0
    split
    · omega
    · split
      · omega
      · split
        · omega
        · exact hInv.2 hL0

theorem or_Inv (hW : 0 < W) (hInv : Inv W N data) (hInv2 : Inv W N other) :
    Inv W N (or_assign W N data other) := by
  unfold or_assign
  refine Inv_of_word0 ?_ ?_ <;> dsimp only
  · intro j hj
    have hb := Inv_testBit hInv j hj
    have hb2 := Inv_testBit hInv2 j hj
    split
    · rw [getD_set]
      split
      · rw [Nat.testBit_or, hb, hb2]
        rfl
      · exact hb
    · split
      · rw [getD_set, getD_set]
        split
        · next h1 => omega
        · split
          · rw [Nat.testBit_or, hb, hb2]
            rfl
          · exact hb
      · split
        · rw [mapIdxD_getD]
          split
          · split
            · rw [Nat.testBit_or, hb, hb2]
              rfl
            · exact hb
          · exact Nat.zero_testBit j
        · exact hb
  · intro hL0
    split
    · omega
    · split
      · omega
      · split
        · omega
        · exact hInv.2 hL0

theorem xor_Inv (hW : 0 < W) (hInv : Inv W N data) (hInv2 : Inv W N other) :
    Inv W N (xor_assign W N data other) := by
  unfold xor_assign
  refine Inv_of_word0 ?_ ?_ <;> dsimp only
  · intro j hj
    have hb := Inv_testBit hInv j hj
    have hb2 := Inv_testBit hInv2 j hj
    split
    · rw [getD_set]
      split
      · rw [Nat.testBit_xor, hb, hb2]
        rfl
      · exact hb
    · split
      · rw [getD_set, getD_set]
        split
        · next h1 => omega
        · split
          · rw [Nat.testBit_xor, hb, hb2]
            rfl
          · exact hb
      · split
        · rw [mapIdxD_getD]
          split
          · split
            · rw [Nat.testBit_xor, hb, hb2]
              rfl
            · exact hb
          · exact Nat.zero_testBit j
        · exact hb
  · intro hL0
    split
    · omega
    · split
      · omega
      · split
        · omega
        · exact hInv.2 hL0

theorem diff_Inv (hW : 0 < W) (hInv : Inv W N data) :
    Inv W N (diff_assign W N data other) := by
  unfold diff_assign
  refine Inv_of_word0 ?_ ?_ <;> dsimp only
  · intro j hj
    have hb := Inv_testBit hInv j hj
    split
    · rw [getD_set]
      split
      · rw [Nat.testBit_and, hb]
        rfl
      · exact hb
    · split
      · rw [getD_set, getD_set]
        split
        · next h1 => omega
        · split
          · rw [Nat.testBit_and, hb]
            rfl
          · exact hb
      · split
        · rw [mapIdxD_getD]
          split
          · split
            · rw [Nat.testBit_and, hb]
              rfl
            · exact hb
          · exact Nat.zero_testBit j
        · exact hb
  · intro hL0
    split
    · omega
    · split
      · omega
      · split
        · omega
        · exact hInv.2 hL0

theorem shl_Inv (hW : 0 < W) (hInv : Inv W N data) :
    Inv W N (shl_assign W N data n) := by
  unfold shl_assign
  dsimp only
  split
  · next hL1 =>
    apply clear_excess_bits_Inv hW
    intro hE
    exact Inv_of_word0 (by intro j hj; omega) (by intro h; omega)
  · split
    · next hL2 =>
      split
      · exact hInv
      · apply clear_excess_bits_Inv hW
        intro hE
        exact Inv_of_word0 (by intro j hj; omega) (by intro h; omega)
    · apply clear_excess_bits_Inv hW
      intro hE
      exact hInv

theorem shr_Inv (hW : 0 < W) (hInv : Inv W N data) :
    Inv W N (shr_assign W N data n) := by
  unfold shr_assign
  dsimp only
  split
  · next hL1 =>
    refine Inv_of_word0 ?_ (by intro h; omega)
    intro j hj
    rw [getD_set]
    split
    · rw [Nat.testBit_mod_two_pow, Nat.testBit_shiftLeft]
      by_cases hn : n ≤ j
      · rw [Inv_testBit hInv (j - n) (by omega)]
        simp
      · simp [hn]
    · exact Inv_testBit hInv j hj
  · split
    · next hL2 =>
      split
      · exact hInv
      · next hn0 =>
        refine Inv_of_word0 ?_ (by intro h; omega)
        intro j hj
        split
        · next hLs =>
          rw [mapIdxD_getD]
          split
          · have hnb : 0 < n / W := by
              rcases Nat.eq_zero_or_pos (n / W) with h | h
              · have := Nat.div_add_mod n W
                rw [h] at this
                omega
              · exact h
            rw [if_pos hnb]
            exact Nat.zero_testBit j
          · exact Nat.zero_testBit j
        · rw [mapIdxD_getD]
          split
          · split
            · exact Nat.zero_testBit j
            · split
              · rw [Nat.testBit_mod_two_pow, Nat.testBit_shiftLeft]
                by_cases hn : n % W ≤ j
                · rw [Inv_testBit hInv (j - n % W) (by omega)]
                  simp
                · simp [hn]
              · next h1 h2 => exact absurd (Nat.eq_zero_of_not_pos h1).symm h2
          · exact Nat.zero_testBit j
    · exact hInv

theorem dflt_Inv (W N : Nat) : Inv W N (dflt W N) := by
  refine Inv_of_word0 ?_ ?_ <;> rw [dflt_getD]
  · intro j hj
    exact Nat.zero_testBit j
  · intro h
    rfl

/-- The mutating interface of claim C7: every state reachable from the
default-constructed container by `insert`, `erase`, `replace`, `fill`,
`clear`, `complement`, `operator&=`, `operator|=`, `operator^=`,
`operator-=`, `operator<<=` and `operator>>=`, called under their
preconditions (`is_valid` arguments; operands of binary operators are
themselves reachable). -/
inductive Reachable (W N : Nat) : List Nat → Prop
  | init : Reachable W N (dflt W N)
  | ins {s x} : Reachable W N s → x < N → Reachable W N (insert W N s x).1
  | ers {s x} : Reachable W N s → x < N → Reachable W N (erase W N s x).1
  | rep {s x} : Reachable W N s → x < N → Reachable W N (replace W N s x)
  | fil {s} : Reachable W N s → Reachable W N (fill W N s)
  | clr {s} : Reachable W N s → Reachable W N (clear W N s)
  | compl {s} : Reachable W N s → Reachable W N (complement W N s)
  | land {s t} : Reachable W N s → Reachable W N t → Reachable W N (and_assign W N s t)
  | lor {s t} : Reachable W N s → Reachable W N t → Reachable W N (or_assign W N s t)
  | lxor {s t} : Reachable W N s → Reachable W N t → Reachable W N (xor_assign W N s t)
  | ldiff {s t} : Reachable W N s → Reachable W N t → Reachable W N (diff_assign W N s t)
  | shl {s n} : Reachable W N s → n < N → Reachable W N (shl_assign W N s n)
  | shr {s n} : Reachable W N s → n < N → Reachable W N (shr_assign W N s n)

theorem Reachable_Inv (hW : 0 < W) (h : Reachable W N s) : Inv W N s := by
  induction h with
  | init => exact dflt_Inv W N
  | ins _ hx ih => exact insert_Inv hW hx ih
  | ers _ hx ih => exact erase_Inv hW hx ih
  | rep _ hx ih => exact replace_Inv hW hx ih
  | fil _ ih => exact fill_Inv hW ih
  | clr _ ih => exact clear_Inv hW ih
  | compl _ ih => exact complement_Inv hW ih
  | land _ _ ih1 ih2 => exact and_Inv hW ih1
  | lor _ _ ih1 ih2 => exact or_Inv hW ih1 ih2
  | lxor _ _ ih1 ih2 => exact xor_Inv hW ih1 ih2
  | ldiff _ _ ih1 ih2 => exact diff_Inv hW ih1
  | shl _ _ ih => exact shl_Inv hW ih
  | shr _ _ ih => exact shr_Inv hW ih

/-! ### Claim C7: the excess bits are zero in every reachable state -/

/-- C7: for every block width `W > 0` and capacity `N`, in every state
reachable from a default-constructed set by any sequence of the mutating
operations `insert`, `erase`, `replace`, `fill`, `clear`, `complement`,
`operator&=`, `operator|=`, `operator^=`, `operator-=`, `operator<<=` and
`operator>>=` called under their preconditions, the `num_excess_bits` unused
low-order bits of storage word 0 are zero. -/
theorem C7_excess_bits_zero (W N : Nat) (s : List Nat) (hW : 0 < W)
    (h : Reachable W N s) :
    s.getD 0 0 % 2 ^ num_excess_bits W N = 0 :=
  (Reachable_Inv hW h).1

/-- C7, witness: `N = 5`, `W = 8` (three excess bits); the state
`fill` → `complement` → `shift left by 2` is reachable and keeps the
excess bits clear. -/
theorem C7_witness :
    (shl_assign 8 5 (complement 8 5 (fill 8 5 (dflt 8 5))) 2).getD 0 0 %
        2 ^ num_excess_bits 8 5 = 0 :=
  C7_excess_bits_zero 8 5 _ (by decide)
    (Reachable.shl (Reachable.compl (Reachable.fil Reachable.init)) (by decide))

/-! ### Claim C8: complement is an involution -/

theorem and_ones_eq (hx : x < 2 ^ W) : x &&& ones W = x := by
  apply Nat.eq_of_testBit_eq
  intro j
  rw [Nat.testBit_and, testBit_ones]
  by_cases hj : j < W
  · simp [hj]
  · have : x.testBit j = false :=
      Nat.testBit_lt_two_pow (Nat.lt_of_lt_of_le hx (Nat.pow_le_pow_right (by omega) (by omega)))
    simp [hj, this]

theorem bnot_bnot (hx : x < 2 ^ W) : bnot W (bnot W x) = x := by
  unfold bnot
  rw [← Nat.xor_assoc, Nat.xor_self, Nat.zero_xor]

theorem clear_excess_bits_length (W N : Nat) (data : List Nat) :
    (clear_excess_bits W N data).length = data.length := by
  unfold clear_excess_bits
  split
  · exact List.length_set data 0 _
  · rfl

theorem complement_length (W N : Nat) (data : List Nat) :
    (complement W N data).length = data.length := by
  unfold complement
  dsimp only
  rw [clear_excess_bits_length]
  split
  · exact List.length_set data 0 _
  · split
    · rw [List.length_set, List.length_set]
    · split
      · exact mapIdxD_length data _
      · rfl

theorem WF_of_getD (hlen : data.length = num_storage_blocks W N)
    (h : ∀ i, i < data.length → data.getD i 0 < 2 ^ W) : WF W N data := by
  refine ⟨hlen, ?_⟩
  intro b hb
  obtain ⟨i, hi, rfl⟩ := List.getElem_of_mem hb
  have h2 := h i hi
  rwa [List.getD_eq_getElem?_getD, List.getElem?_eq_getElem hi] at h2

/-- Uniform description of `complement`: every logical word is complemented,
and word 0 is additionally masked with `no_excess_bits` (a no-op when
`num_excess_bits = 0`, because then `no_excess_bits = ones`). -/
theorem complement_getD (hW : 0 < W) (hL : 1 ≤ num_logical_blocks W N)
    (hWF : WF W N data) (j : Nat) :
    (complement W N data).getD j 0 =
      if j = 0 then bnot W (data.getD 0 0) &&& no_excess_bits W N
      else if j < num_logical_blocks W N then bnot W (data.getD j 0)
      else data.getD j 0 := by
  obtain ⟨hlen, hbound⟩ := hWF
  have hlen1 : 0 < data.length := by
    rw [hlen]
    unfold num_storage_blocks
    omega
  have hinner : ∀ j : Nat,
      ((if num_logical_blocks W N = 1 then data.set 0 (bnot W (data.getD 0 0))
        else if num_logical_blocks W N = 2 then
          ((data.set 0 (bnot W (data.getD 0 0))).set 1 (bnot W (data.getD 1 0)))
        else if 3 ≤ num_logical_blocks W N then mapIdxD data fun _ x => bnot W x
        else data)).getD j 0 =
      if j < num_logical_blocks W N then bnot W (data.getD j 0)
      else data.getD j 0 := by
    intro j
    have hlenL : data.length = num_logical_blocks W N := by
      rw [hlen]
      unfold num_storage_blocks
      omega
    split
    · next h1 =>
      rw [getD_set]
      by_cases hj : j = 0
      · subst hj
        rw [if_pos ⟨rfl, hlen1⟩, if_pos (by omega)]
      · rw [if_neg (by omega), if_neg (by omega)]
    · next h1 =>
      split
      · next h2 =>
        rw [getD_set, List.length_set, getD_set]
        by_cases hj : j = 0
        · subst hj
          rw [if_neg (by omega), if_pos ⟨rfl, hlen1⟩, if_pos (by omega)]
        · by_cases hj1 : j = 1
          · subst hj1
            rw [if_pos ⟨rfl, by omega⟩, if_pos (by omega)]
          · rw [if_neg (by omega), if_neg (by omega), if_neg (by omega)]
      · next h2 =>
        split
        · next h3 =>
          rw [mapIdxD_getD]
          by_cases hj : j < data.length
          · rw [if_pos hj, if_pos (by omega)]
          · rw [if_neg hj, if_neg (by omega),
              getD_eq_zero_of_le _ _ (by omega)]
        · omega
  unfold complement clear_excess_bits
  dsimp only
  by_cases hE : num_excess_bits W N ≠ 0
  · rw [if_pos hE, getD_set]
    by_cases hj : j = 0
    · subst hj
      have hlen2 : 0 < (if num_logical_blocks W N = 1 then
          data.set 0 (bnot W (data.getD 0 0))
        else if num_logical_blocks W N = 2 then
          ((data.set 0 (bnot W (data.getD 0 0))).set 1 (bnot W (data.getD 1 0)))
        else if 3 ≤ num_logical_blocks W N then mapIdxD data fun _ x => bnot W x
        else data).length := by
        split
        · rw [List.length_set]
          omega
        · split
          · rw [List.length_set, List.length_set]
            omega
          · split
            · rw [mapIdxD_length]
              omega
            · omega
      rw [if_pos ⟨rfl, hlen2⟩, hinner 0, if_pos (by omega)]
      simp
    · rw [if_neg (by omega), hinner j]
      rw [if_neg hj]
  · rw [if_neg hE, hinner j]
    have hE0 : num_excess_bits W N = 0 := by omega
    by_cases hj : j = 0
    · subst hj
      rw [if_pos (by omega), if_pos rfl]
      have hones : no_excess_bits W N = ones W := by
        apply Nat.eq_of_testBit_eq
        intro k
        rw [testBit_no_excess_bits hW, testBit_ones, hE0]
        simp
      rw [hones, and_ones_eq (bnot_lt (WF_getD_lt ⟨hlen, hbound⟩ 0))]
    · rw [if_neg hj]

theorem complement_WF (hW : 0 < W) (hWF : WF W N data) :
    WF W N (complement W N data) := by
  rcases Nat.eq_zero_or_pos (num_logical_blocks W N) with hL | hL
  · refine WF_of_getD (by rw [complement_length, hWF.1]) ?_
    intro i hi
    rw [complement_length] at hi
    unfold complement clear_excess_bits
    dsimp only
    rw [if_neg (by have := excess_eq_zero_of_L_eq_zero hL; omega),
      if_neg (by omega), if_neg (by omega), if_neg (by omega)]
    exact WF_getD_lt hWF i
  · refine WF_of_getD (by rw [complement_length, hWF.1]) ?_
    intro i hi
    rw [complement_getD hW hL hWF i]
    split
    · exact Nat.lt_of_le_of_lt (Nat.and_le_left) (bnot_lt (WF_getD_lt hWF 0))
    · split
      · exact bnot_lt (WF_getD_lt hWF _)
      · exact WF_getD_lt hWF i

/-- C8: for every block width `W > 0`, capacity `N` and well-formed state
with clear excess bits, applying `complement` twice returns the original
stored representation; equivalently each single application negates every
valid membership bit while keeping the excess bits clear. -/
theorem C8_complement_involution (W N : Nat) (s : List Nat) (hW : 0 < W)
    (hWF : WF W N s) (hInv : Inv W N s) :
    complement W N (complement W N s) = s := by
  rcases Nat.eq_zero_or_pos (num_logical_blocks W N) with hL | hL
  · have hid : ∀ t : List Nat, complement W N t = t := by
      intro t
      unfold complement clear_excess_bits
      dsimp only
      rw [if_neg (by have := excess_eq_zero_of_L_eq_zero hL; omega),
        if_neg (by omega), if_neg (by omega), if_neg (by omega)]
    rw [hid, hid]
  · have hWF2 := complement_WF hW hWF
    apply ext_getD
    · rw [complement_length, complement_length]
    · intro j hj
      rw [complement_length, complement_length] at hj
      have hjL : j < num_logical_blocks W N := by
        have := hWF.1
        unfold num_storage_blocks at this
        omega
      by_cases hj0 : j = 0
      · subst hj0
        rw [complement_getD hW hL hWF2 0, complement_getD hW hL hWF 0,
          if_pos rfl, if_pos rfl]
        apply Nat.eq_of_testBit_eq
        intro k
        rw [Nat.testBit_and, testBit_bnot (Nat.lt_of_le_of_lt Nat.and_le_left
          (bnot_lt (WF_getD_lt hWF 0))), Nat.testBit_and,
          testBit_bnot (WF_getD_lt hWF 0), testBit_no_excess_bits hW]
        by_cases hk : k < W
        · by_cases hkE : num_excess_bits W N ≤ k
          · simp [hk, hkE]
          · have h5 := Inv_testBit hInv k (by omega)
            simp only [List.getD_eq_getElem?_getD] at h5
            simp [hk, hkE, h5]
        · have h5 : (s.getD 0 0).testBit k = false :=
            Nat.testBit_lt_two_pow (Nat.lt_of_lt_of_le (WF_getD_lt hWF 0)
              (Nat.pow_le_pow_right (by omega) (by omega)))
          simp only [List.getD_eq_getElem?_getD] at h5
          simp [hk, h5]
      · rw [complement_getD hW hL hWF2 j, complement_getD hW hL hWF j,
          if_neg hj0, if_neg hj0, if_pos hjL, if_pos hjL,
          bnot_bnot (WF_getD_lt hWF j)]

/-- C8, witness: `N = 5`, `W = 8`, state `{0, 2}` (excess bits clear). -/
theorem C8_witness : complement 8 5 (complement 8 5 [160]) = [160] :=
  C8_complement_involution 8 5 [160] (by decide) ⟨by decide, by decide⟩
    ⟨by decide, by decide⟩

/-! ### Claim C9: the zero-capacity container -/

/-- C9: for `N = 0` (over any block width `W > 0`) and every storage state,
`empty()` returns `true`, `full()` returns `true`, `size()` returns `0`, and
iterating from `begin()` to `end()` yields no elements: the container is
simultaneously empty and full in every reachable state. -/
theorem C9_zero_capacity (W : Nat) (data : List Nat) (hW : 0 < W) :
    empty W 0 data = true ∧ full W 0 data = true ∧ ssize W 0 data = 0 ∧
      to_list W 0 data = [] := by
  have hL : num_logical_blocks W 0 = 0 := (L_eq_zero_iff hW).2 rfl
  have hE : num_excess_bits W 0 = 0 := excess_eq_zero_of_L_eq_zero hL
  refine ⟨?_, ?_, ?_, ?_⟩
  · unfold empty
    dsimp only
    rw [if_pos hL]
  · unfold full
    dsimp only
    rw [if_pos hE, if_pos hL]
  · unfold ssize
    dsimp only
    rw [if_pos hL]
  · have hff : find_first W 0 data = 0 := by
      unfold find_first
      dsimp only
      rw [if_neg (by omega), if_neg (by omega)]
    unfold to_list
    rw [hff]
    unfold iter_from
    rw [if_pos rfl]

/-- C9, witness (with a deliberately nonzero storage word, which `N = 0`
never inspects). -/
theorem C9_witness :
    empty 8 0 [5] = true ∧ full 8 0 [5] = true ∧ ssize 8 0 [5] = 0 ∧
      to_list 8 0 [5] = [] :=
  C9_zero_capacity 8 [5] (by decide)

/-! ### The scan engine: clznz finds the most significant set bit -/

theorem bitLenAux_zero (f : Nat) : bitLenAux f 0 = 0 := by
  cases f <;> rfl

theorem bitLenAux_succ (f x : Nat) :
    bitLenAux (f + 1) x = if x = 0 then 0 else bitLenAux f (x / 2) + 1 := rfl

theorem bitLenAux_spec (f : Nat) : ∀ x, x < 2 ^ f → x ≠ 0 →
    0 < bitLenAux f x ∧ bitLenAux f x ≤ f ∧
    2 ^ (bitLenAux f x - 1) ≤ x ∧ x < 2 ^ bitLenAux f x := by
  induction f with
  | zero =>
    intro x h1 h2
    simp at h1
    omega
  | succ f ih =>
    intro x h1 h2
    rw [bitLenAux_succ, if_neg h2]
    simp only [Nat.add_sub_cancel]
    by_cases h3 : x / 2 = 0
    · have hx1 : x = 1 := by omega
      subst hx1
      rw [h3, bitLenAux_zero]
      refine ⟨by omega, by omega, by decide, by decide⟩
    · have hpow : 2 ^ (f + 1) = 2 * 2 ^ f := by
        rw [Nat.pow_succ, Nat.mul_comm]
      have hx2 : x / 2 < 2 ^ f := by omega
      obtain ⟨p1, p2, p3, p4⟩ := ih (x / 2) hx2 h3
      have hb : 2 ^ bitLenAux f (x / 2) = 2 * 2 ^ (bitLenAux f (x / 2) - 1) := by
        conv_lhs => rw [show bitLenAux f (x / 2) = (bitLenAux f (x / 2) - 1) + 1 by omega]
        rw [Nat.pow_succ, Nat.mul_comm]
      have hb2 : 2 ^ (bitLenAux f (x / 2) + 1) = 2 * 2 ^ bitLenAux f (x / 2) := by
        rw [Nat.pow_succ, Nat.mul_comm]
      refine ⟨by omega, by omega, by omega, by omega⟩

/-- For a nonzero W-bit word, `clznz` addresses the smallest stored value of
the word: bit `W - 1 - clznz W x` is set, every more significant bit is not. -/
theorem clznz_spec (hW : 0 < W) (hx : 0 < x) (hxW : x < 2 ^ W) :
    clznz W x < W ∧
    x.testBit (W - 1 - clznz W x) = true ∧
    ∀ j, W - 1 - clznz W x < j → x.testBit j = false := by
  obtain ⟨p1, p2, p3, p4⟩ := bitLenAux_spec W x hxW (by omega)
  have hc : clznz W x = W - bitLenAux W x := rfl
  have hidx : W - 1 - clznz W x = bitLenAux W x - 1 := by omega
  refine ⟨by omega, ?_, ?_⟩
  · rw [hidx, Nat.testBit_to_div_mod]
    have hdiv : x / 2 ^ (bitLenAux W x - 1) = 1 := by
      have hb : 2 ^ bitLenAux W x = 2 * 2 ^ (bitLenAux W x - 1) := by
        conv_lhs => rw [show bitLenAux W x = (bitLenAux W x - 1) + 1 by omega]
        rw [Nat.pow_succ, Nat.mul_comm]
      have h1 : 1 * 2 ^ (bitLenAux W x - 1) ≤ x := by omega
      have h2 : x < (1 + 1) * 2 ^ (bitLenAux W x - 1) := by omega
      exact Nat.div_eq_of_lt_le h1 h2
    rw [hdiv]
    rfl
  · intro j hj
    rw [hidx] at hj
    exact Nat.testBit_lt_two_pow
      (Nat.lt_of_lt_of_le p4 (Nat.pow_le_pow_right (by omega) (by omega)))

theorem scanDown_zero_eq (W : Nat) (data : List Nat) (n : Nat) :
    scanDown W data 0 n =
      if data.getD 0 0 ≠ 0 then some (n + clznz W (data.getD 0 0)) else none := rfl

theorem scanDown_succ_eq (W : Nat) (data : List Nat) (i n : Nat) :
    scanDown W data (i + 1) n =
      if data.getD (i + 1) 0 ≠ 0 then some (n + clznz W (data.getD (i + 1) 0))
      else scanDown W data i (n + W) := rfl

/-- Correctness of the descending word loop: starting at word `i` with running
value `n` (value `n` is bit offset 0 of word `i`; each step moves one word
down and `W` values up), the loop returns the least value whose region bit is
set, or `none` when all scanned words are zero. -/
theorem scanDown_spec (W : Nat) (data : List Nat) (hW : 0 < W)
    (hbound : ∀ k : Nat, data.getD k 0 < 2 ^ W) :
    ∀ i n,
      (scanDown W data i n = none → ∀ k, k ≤ i → data.getD k 0 = 0) ∧
      (∀ r, scanDown W data i n = some r →
        n ≤ r ∧ r < n + (i + 1) * W ∧
        (data.getD (i - (r - n) / W) 0).testBit (W - 1 - (r - n) % W) = true ∧
        ∀ m, n ≤ m → m < r →
          (data.getD (i - (m - n) / W) 0).testBit (W - 1 - (m - n) % W) = false) := by
  intro i
  induction i with
  | zero =>
    intro n
    constructor
    · intro h k hk
      rw [scanDown_zero_eq] at h
      by_cases hz : data.getD 0 0 ≠ 0
      · rw [if_pos hz] at h
        exact Option.noConfusion h
      · have hk0 : k = 0 := by omega
        subst hk0
        omega
    · intro r hr
      rw [scanDown_zero_eq] at hr
      by_cases hz : data.getD 0 0 ≠ 0
      · rw [if_pos hz] at hr
        have hreq : r = n + clznz W (data.getD 0 0) := by
          injection hr with h
          omega
        obtain ⟨c1, c2, c3⟩ := clznz_spec hW (by omega) (hbound 0)
        have e0 : r - n = clznz W (data.getD 0 0) := by omega
        refine ⟨by omega, ?_, ?_, ?_⟩
        · have : 1 * W ≤ 1 * W := Nat.le_refl _
          omega
        · rw [e0, Nat.div_eq_of_lt (by omega), Nat.mod_eq_of_lt (by omega)]
          exact c2
        · intro m hm1 hm2
          rw [Nat.div_eq_of_lt (by omega), Nat.mod_eq_of_lt (by omega)]
          exact c3 _ (by omega)
      · rw [if_neg hz] at hr
        exact Option.noConfusion hr
  | succ i ih =>
    intro n
    constructor
    · intro h k hk
      rw [scanDown_succ_eq] at h
      by_cases hz : data.getD (i + 1) 0 ≠ 0
      · rw [if_pos hz] at h
        exact Option.noConfusion h
      · rw [if_neg hz] at h
        rcases Nat.lt_or_ge k (i + 1) with hk2 | hk2
        · exact (ih (n + W)).1 h k (by omega)
        · have hke : k = i + 1 := by omega
          subst hke
          omega
    · intro r hr
      rw [scanDown_succ_eq] at hr
      by_cases hz : data.getD (i + 1) 0 ≠ 0
      · rw [if_pos hz] at hr
        have hreq : r = n + clznz W (data.getD (i + 1) 0) := by
          injection hr with h
          omega
        obtain ⟨c1, c2, c3⟩ := clznz_spec hW (by omega) (hbound (i + 1))
        have e0 : r - n = clznz W (data.getD (i + 1) 0) := by omega
        have hWle : 1 * W ≤ (i + 1 + 1) * W := Nat.mul_le_mul_right W (by omega)
        refine ⟨by omega, by omega, ?_, ?_⟩
        · rw [e0, Nat.div_eq_of_lt (by omega), Nat.mod_eq_of_lt (by omega),
            Nat.sub_zero]
          exact c2
        · intro m hm1 hm2
          rw [Nat.div_eq_of_lt (by omega), Nat.mod_eq_of_lt (by omega),
            Nat.sub_zero]
          exact c3 _ (by omega)
      · rw [if_neg hz] at hr
        have hz0 : data.getD (i + 1) 0 = 0 := by omega
        obtain ⟨q1, q2, q3, q4⟩ := (ih (n + W)).2 r hr
        have hsm : (i + 1 + 1) * W = (i + 1) * W + W := Nat.succ_mul (i + 1) W
        have ht : r - n = (r - (n + W)) + W := by omega
        have e1 : (r - n) / W = (r - (n + W)) / W + 1 := by
          rw [ht, Nat.add_div_right _ hW]
        have e2 : (r - n) % W = (r - (n + W)) % W := by
          rw [ht, Nat.add_mod_right]
        refine ⟨by omega, by omega, ?_, ?_⟩
        · rw [e1, e2, show i + 1 - ((r - (n + W)) / W + 1) = i - (r - (n + W)) / W by omega]
          exact q3
        · intro m hm1 hm2
          rcases Nat.lt_or_ge m (n + W) with hm3 | hm3
          · rw [Nat.div_eq_of_lt (by omega), Nat.sub_zero, hz0, Nat.zero_testBit]
          · have htm : m - n = (m - (n + W)) + W := by omega
            have e3 : (m - n) / W = (m - (n + W)) / W + 1 := by
              rw [htm, Nat.add_div_right _ hW]
            have e4 : (m - n) % W = (m - (n + W)) % W := by
              rw [htm, Nat.add_mod_right]
            rw [e3, e4, show i + 1 - ((m - (n + W)) / W + 1) = i - (m - (n + W)) / W by omega]
            exact q4 m (by omega) hm2

/-- With clear excess bits, no bit addressed by a value `≥ N` is set. -/
theorem no_high_bits (hW : 0 < W) (hN : 0 < N) (hInv : Inv W N data) :
    ∀ m, N ≤ m → m < num_logical_blocks W N * W →
      (data.getD (num_logical_blocks W N - 1 - m / W) 0).testBit (W - 1 - m % W) =
        false := by
  intro m hm1 hm2
  have hL := L_pos hW hN
  have hLW : num_logical_blocks W N * W = W * (num_logical_blocks W N - 1) + W := by
    rw [Nat.mul_comm]
    conv_lhs => rw [show num_logical_blocks W N = (num_logical_blocks W N - 1) + 1 by omega]
    rw [Nat.mul_succ]
  have hup := L_mul_W_le hW hN
  have hc : (num_logical_blocks W N - 1) * W = W * (num_logical_blocks W N - 1) :=
    Nat.mul_comm _ _
  have hdivm : m / W = num_logical_blocks W N - 1 := by
    apply Nat.div_eq_of_lt_le
    · omega
    · have : (num_logical_blocks W N - 1 + 1) * W = num_logical_blocks W N * W := by
        rw [show num_logical_blocks W N - 1 + 1 = num_logical_blocks W N by omega]
      omega
  have hdm := Nat.div_add_mod m W
  rw [hdivm] at hdm
  have hEdef : num_excess_bits W N = num_logical_blocks W N * W - N := rfl
  rw [hdivm]
  rw [show num_logical_blocks W N - 1 - (num_logical_blocks W N - 1) = 0 by omega]
  exact Inv_testBit hInv _ (by omega)

/-- Scan coordinates agree with the global value layout: scanning from word
`i` whose bit offset 0 is value `base = (L - 1 - i) * W`, value `m ≥ base` has
word index `i - (m - base) / W` and word-relative value `(m - base) % W`. -/
theorem scan_coord (hW : 0 < W) (hi : i < num_logical_blocks W N)
    (hbase : base = (num_logical_blocks W N - 1 - i) * W) (hm : base ≤ m) :
    i - (m - base) / W = num_logical_blocks W N - 1 - m / W ∧
    (m - base) % W = m % W := by
  have hcomm : W * (num_logical_blocks W N - 1 - i) =
      (num_logical_blocks W N - 1 - i) * W := Nat.mul_comm _ _
  have hdiv : m / W = (m - base) / W + (num_logical_blocks W N - 1 - i) := by
    conv_lhs => rw [show m = (m - base) + W * (num_logical_blocks W N - 1 - i) by omega]
    rw [Nat.add_mul_div_left _ _ hW]
  have hmod : m % W = (m - base) % W := by
    conv_lhs => rw [show m = (m - base) + W * (num_logical_blocks W N - 1 - i) by omega]
    rw [Nat.add_mul_mod_self_left]
  exact ⟨by omega, by omega⟩

/-- The descending word loop, read at the container level: started at word
`i` with running value `base = (L - 1 - i) * W`, it finds the least member
`≥ base` (a valid value, by the excess-bit invariant), or proves there is
none. -/
theorem scanDown_layout (hW : 0 < W) (hN : 0 < N) (hWF : WF W N data)
    (hInv : Inv W N data) (hi : i < num_logical_blocks W N)
    (hbase : base = (num_logical_blocks W N - 1 - i) * W) :
    (scanDown W data i base = none →
      ∀ m, base ≤ m → m < N → contains W N data m = false) ∧
    (∀ r, scanDown W data i base = some r →
      base ≤ r ∧ r < N ∧ contains W N data r = true ∧
      ∀ m, base ≤ m → m < r → contains W N data m = false) := by
  have hL := L_pos hW hN
  have hbound : ∀ k : Nat, data.getD k 0 < 2 ^ W := fun k => WF_getD_lt hWF k
  have hcover : base + (i + 1) * W = num_logical_blocks W N * W := by
    have h1 : (num_logical_blocks W N - 1 - i) + (i + 1) = num_logical_blocks W N := by
      omega
    rw [hbase, ← Nat.add_mul, h1]
  have hNle := le_L_mul_W (W := W) (N := N) hW
  constructor
  · intro hnone m hm1 hm2
    have hall := (scanDown_spec W data hW hbound i base).1 hnone
    have hslot : num_logical_blocks W N - 1 - m / W ≤ i := by
      have h2 : num_logical_blocks W N - 1 - i ≤ m / W := by
        rw [Nat.le_div_iff_mul_le hW]
        omega
      omega
    rw [contains_eq_testBit hW hm2,
      hall (num_logical_blocks W N - 1 - m / W) hslot, Nat.zero_testBit]
  · intro r hr
    obtain ⟨q1, q2, q3, q4⟩ := (scanDown_spec W data hW hbound i base).2 r hr
    obtain ⟨e1, e2⟩ := scan_coord hW hi hbase q1
    have hrN : r < N := by
      by_contra hge
      rw [e1, e2] at q3
      rw [no_high_bits hW hN hInv r (by omega) (by omega)] at q3
      exact Bool.noConfusion q3
    refine ⟨q1, hrN, ?_, ?_⟩
    · rw [contains_eq_testBit hW hrN, ← e1, ← e2]
      exact q3
    · intro m hm1 hm2
      obtain ⟨f1, f2⟩ := scan_coord hW hi hbase hm1
      rw [contains_eq_testBit hW (by omega), ← f1, ← f2]
      exact q4 m hm1 hm2

/-- Correctness of the masked first-word test of `find_next`: shifting `n`'s
word left by `n`'s offset discards the bits of smaller values; a zero result
means no member in the rest of `n`'s word, a nonzero result locates the least
member `≥ n`, which the excess-bit invariant keeps below `N`. -/
theorem first_block_layout (hW : 0 < W) (hWF : WF W N data) (hInv : Inv W N data)
    (hn : n < N) (B : Nat)
    (hB : B = (data.getD (num_logical_blocks W N - 1 - n / W) 0 <<< (n % W)) % 2 ^ W) :
    (B = 0 → ∀ m, n ≤ m → m < n / W * W + W → m < N → contains W N data m = false) ∧
    (B ≠ 0 →
      n ≤ n + clznz W B ∧ n + clznz W B < n / W * W + W ∧ n + clznz W B < N ∧
      contains W N data (n + clznz W B) = true ∧
      ∀ m, n ≤ m → m < n + clznz W B → contains W N data m = false) := by
  have hN : 0 < N := by omega
  have hL := L_pos hW hN
  have hdm := Nat.div_add_mod n W
  have hmodW := Nat.mod_lt n hW
  have hslotend : n / W * W + W = W * (n / W) + W := by rw [Nat.mul_comm]
  have hbit : ∀ m, n ≤ m → m < n / W * W + W →
      B.testBit (W - 1 - (m - n)) =
        (data.getD (num_logical_blocks W N - 1 - m / W) 0).testBit (W - 1 - m % W) := by
    intro m h1 h2
    have hmdiv : m / W = n / W := by
      apply Nat.div_eq_of_lt_le
      · have := Nat.div_mul_le_self n W
        omega
      · rw [Nat.succ_mul]
        omega
    have hdm2 := Nat.div_add_mod m W
    rw [hmdiv] at hdm2
    rw [hB, Nat.testBit_mod_two_pow, Nat.testBit_shiftLeft, hmdiv]
    have e1 : W - 1 - (m - n) < W := by omega
    have e2 : n % W ≤ W - 1 - (m - n) := by omega
    have e3 : W - 1 - (m - n) - n % W = W - 1 - m % W := by omega
    simp [e1, e2, e3]
  have hBlt : B < 2 ^ W := by
    rw [hB]
    exact Nat.mod_lt _ (Nat.two_pow_pos W)
  constructor
  · intro hB0 m h1 h2 h3
    rw [contains_eq_testBit hW h3, ← hbit m h1 h2, hB0, Nat.zero_testBit]
  · intro hBne
    obtain ⟨c1, c2, c3⟩ := clznz_spec hW (by omega) hBlt
    have hlowbits : ∀ j, j < n % W → B.testBit j = false := by
      intro j hj
      rw [hB, Nat.testBit_mod_two_pow, Nat.testBit_shiftLeft]
      have h6 : ¬n % W ≤ j := by omega
      simp [h6]
    have hge : n % W ≤ W - 1 - clznz W B := by
      by_contra hlt
      rw [hlowbits _ (by omega)] at c2
      exact Bool.noConfusion c2
    have hin : n + clznz W B < n / W * W + W := by omega
    have hr1 : n ≤ n + clznz W B := Nat.le_add_right n _
    have hmem : B.testBit (W - 1 - clznz W B) =
        (data.getD (num_logical_blocks W N - 1 - (n + clznz W B) / W) 0).testBit
          (W - 1 - (n + clznz W B) % W) := by
      have h7 := hbit (n + clznz W B) hr1 hin
      rw [show W - 1 - (n + clznz W B - n) = W - 1 - clznz W B by omega] at h7
      exact h7
    have hrN : n + clznz W B < N := by
      by_contra hge2
      have hLW : n / W * W + W ≤ num_logical_blocks W N * W := by
        have h5 := div_W_lt_L hW hn
        calc n / W * W + W = (n / W + 1) * W := by rw [Nat.succ_mul]
        _ ≤ num_logical_blocks W N * W := Nat.mul_le_mul_right W (by omega)
      have h8 := no_high_bits hW hN hInv (n + clznz W B) (by omega) (by omega)
      rw [← hmem, c2] at h8
      exact Bool.noConfusion h8
    refine ⟨hr1, hin, hrN, ?_, ?_⟩
    · rw [contains_eq_testBit hW hrN, ← hmem]
      exact c2
    · intro m h1 h2
      rw [contains_eq_testBit hW (by omega), ← hbit m h1 (by omega)]
      exact c3 _ (by omega)

/-- Full functional correctness of `find_next`: for `n ≤ N` it returns the
least member `≥ n`, or `N` when there is none (in particular at `n = N`). -/
theorem find_next_spec (W N : Nat) (data : List Nat) (n : Nat) (hW : 0 < W)
    (hWF : WF W N data) (hInv : Inv W N data) (hn : n ≤ N) :
    n ≤ find_next W N data n ∧ find_next W N data n ≤ N ∧
    (∀ m, n ≤ m → m < find_next W N data n → contains W N data m = false) ∧
    (find_next W N data n < N → contains W N data (find_next W N data n) = true) := by
  by_cases hnN : n = N
  · have hr : find_next W N data n = N := by
      unfold find_next
      dsimp only
      rw [if_pos hnN]
    rw [hr]
    refine ⟨by omega, by omega, ?_, ?_⟩
    · intro m h1 h2
      exact absurd h2 (by omega)
    · intro h
      exact absurd h (by omega)
  · have hnN' : n < N := by omega
    have hN : 0 < N := by omega
    have hL1 := L_pos hW hN
    by_cases hL : num_logical_blocks W N = 1
    · have hNW : N ≤ W := N_le_W_of_L_le_one hW (by omega)
      have e1 : num_logical_blocks W N - 1 - n / W = 0 := by
        rw [hL, Nat.div_eq_of_lt (by omega)]
      have e2 : n % W = n := Nat.mod_eq_of_lt (by omega)
      have hC := first_block_layout hW hWF hInv hnN'
        ((data.getD 0 0 <<< n) % 2 ^ W) (by rw [e1, e2])
      have hslotend : n / W * W + W = W := by
        rw [Nat.div_eq_of_lt (by omega)]
        simp
      have hr : find_next W N data n =
          if (data.getD 0 0 <<< n) % 2 ^ W ≠ 0 then
            n + clznz W ((data.getD 0 0 <<< n) % 2 ^ W)
          else N := by
        unfold find_next
        dsimp only
        rw [if_neg hnN, if_pos hL]
      by_cases hb : (data.getD 0 0 <<< n) % 2 ^ W ≠ 0
      · obtain ⟨g1, g2, g3, g4, g5⟩ := hC.2 hb
        rw [hr, if_pos hb]
        exact ⟨g1, by omega, g5, fun _ => g4⟩
      · rw [hr, if_neg hb]
        refine ⟨by omega, by omega, ?_, ?_⟩
        · intro m h1 h2
          exact hC.1 (by omega) m h1 (by omega) h2
        · intro h
          exact absurd h (by omega)
    · have hL2 : 2 ≤ num_logical_blocks W N := by omega
      have hiL := div_W_lt_L hW hnN'
      by_cases hoff : n % W ≠ 0
      · have hC := first_block_layout hW hWF hInv hnN' _ rfl
        have hr : find_next W N data n =
            if (data.getD (num_logical_blocks W N - 1 - n / W) 0 <<< (n % W)) % 2 ^ W ≠ 0 then
              n + clznz W
                ((data.getD (num_logical_blocks W N - 1 - n / W) 0 <<< (n % W)) % 2 ^ W)
            else if num_logical_blocks W N - 1 - n / W = 0 then N
            else
              match scanDown W data (num_logical_blocks W N - 1 - n / W - 1)
                  (n + (W - n % W)) with
              | some r => r
              | none => N := by
          unfold find_next
          dsimp only
          rw [if_neg hnN, if_neg hL, if_pos hL2, which_eq hW hnN', where_eq hW hnN',
            if_pos hoff]
        have hbase : n + (W - n % W) = n / W * W + W := by
          have hdm := Nat.div_add_mod n W
          have hmodW := Nat.mod_lt n hW
          have hs : n / W * W = W * (n / W) := Nat.mul_comm _ _
          omega
        by_cases hb : (data.getD (num_logical_blocks W N - 1 - n / W) 0 <<< (n % W)) % 2 ^ W ≠ 0
        · obtain ⟨g1, g2, g3, g4, g5⟩ := hC.2 hb
          rw [hr, if_pos hb]
          exact ⟨g1, by omega, g5, fun _ => g4⟩
        · rw [hr, if_neg hb]
          by_cases hi0 : num_logical_blocks W N - 1 - n / W = 0
          · rw [if_pos hi0]
            have hcov : N ≤ n / W * W + W := by
              have h0 := Nat.zero_le (n / W)
              have h5 : n / W = num_logical_blocks W N - 1 := by omega
              have h6 := le_L_mul_W (W := W) (N := N) hW
              have h7 : num_logical_blocks W N * W =
                  (num_logical_blocks W N - 1) * W + W := by
                conv_lhs =>
                  rw [show num_logical_blocks W N = num_logical_blocks W N - 1 + 1 by omega]
                rw [Nat.succ_mul]
              rw [h5]
              omega
            refine ⟨by omega, by omega, ?_, ?_⟩
            · intro m h1 h2
              exact hC.1 (by omega) m h1 (by omega) h2
            · intro h
              exact absurd h (by omega)
          · rw [if_neg hi0]
            have hb2 : n + (W - n % W) =
                (num_logical_blocks W N - 1 -
                  (num_logical_blocks W N - 1 - n / W - 1)) * W := by
              rw [show num_logical_blocks W N - 1 -
                  (num_logical_blocks W N - 1 - n / W - 1) = n / W + 1 by
                have h0 := Nat.zero_le (n / W)
                omega]
              rw [hbase, Nat.succ_mul]
            have hB := scanDown_layout hW hN hWF hInv
              (show num_logical_blocks W N - 1 - n / W - 1 < num_logical_blocks W N by
                have h0 := Nat.zero_le (n / W)
                omega)
              hb2
            have hlow : ∀ m, n ≤ m → m < n + (W - n % W) → m < N →
                contains W N data m = false := by
              intro m h1 h2 h3
              exact hC.1 (by omega) m h1 (by omega) h3
            cases hscan : scanDown W data (num_logical_blocks W N - 1 - n / W - 1)
                (n + (W - n % W)) with
            | none =>
              dsimp only
              refine ⟨by omega, by omega, ?_, ?_⟩
              · intro m h1 h2
                rcases Nat.lt_or_ge m (n + (W - n % W)) with h4 | h4
                · exact hlow m h1 h4 h2
                · exact hB.1 hscan m h4 h2
              · intro h
                exact absurd h (by omega)
            | some r =>
              dsimp only
              obtain ⟨g1, g2, g3, g4⟩ := hB.2 r hscan
              refine ⟨by omega, by omega, ?_, fun _ => g3⟩
              intro m h1 h2
              rcases Nat.lt_or_ge m (n + (W - n % W)) with h4 | h4
              · exact hlow m h1 h4 (by omega)
              · exact g4 m h4 h2
      · have hoff' : n % W = 0 := by omega
        have hb2 : n =
            (num_logical_blocks W N - 1 - (num_logical_blocks W N - 1 - n / W)) * W := by
          rw [show num_logical_blocks W N - 1 - (num_logical_blocks W N - 1 - n / W) =
              n / W by
            have h0 := Nat.zero_le (n / W)
            omega]
          have hdm := Nat.div_add_mod n W
          have hs : n / W * W = W * (n / W) := Nat.mul_comm _ _
          omega
        have hB := scanDown_layout hW hN hWF hInv
          (show num_logical_blocks W N - 1 - n / W < num_logical_blocks W N by
            have h0 := Nat.zero_le (n / W)
            omega)
          hb2
        have hr : find_next W N data n =
            match scanDown W data (num_logical_blocks W N - 1 - n / W) n with
            | some r => r
            | none => N := by
          unfold find_next
          dsimp only
          rw [if_neg hnN, if_neg hL, if_pos hL2, which_eq hW hnN', where_eq hW hnN',
            if_neg (show ¬n % W ≠ 0 by omega)]
        rw [hr]
        cases hscan : scanDown W data (num_logical_blocks W N - 1 - n / W) n with
        | none =>
          dsimp only
          refine ⟨by omega, by omega, ?_, ?_⟩
          · intro m h1 h2
            exact hB.1 hscan m h1 h2
          · intro h
            exact absurd h (by omega)
        | some r =>
          dsimp only
          obtain ⟨g1, g2, g3, g4⟩ := hB.2 r hscan
          exact ⟨g1, by omega, g4, fun _ => g3⟩

/-- For a nonempty universe, `find_first()` computes exactly `find_next(0)`:
the single-block path tests the unshifted word, and the multi-block path runs
the same descending loop from the last storage slot. -/
theorem find_first_eq (hW : 0 < W) (hN : 0 < N) (hWF : WF W N data) :
    find_first W N data = find_next W N data 0 := by
  have hL := L_pos hW hN
  unfold find_first find_next
  dsimp only
  rw [if_neg (show ¬(0 : Nat) = N by omega)]
  by_cases hL1 : num_logical_blocks W N = 1
  · rw [if_pos hL1, if_pos hL1]
    have h0 : (data.getD 0 0 <<< 0) % 2 ^ W = data.getD 0 0 := by
      rw [Nat.shiftLeft_zero, Nat.mod_eq_of_lt (WF_getD_lt hWF 0)]
    rw [h0]
    split
    · rw [Nat.zero_add]
    · rfl
  · rw [if_neg hL1, if_neg hL1]
    have hL2 : 2 ≤ num_logical_blocks W N := by omega
    rw [if_pos hL2, if_pos hL2, which_eq hW hN, where_eq hW hN,
      Nat.zero_mod, Nat.zero_div, Nat.sub_zero]
    rw [if_neg (show ¬(0 : Nat) ≠ 0 by omega)]

/-! ### Claim C5: find_next returns the least member at or above the query -/

/-- C5: for every block width `W > 0`, capacity `N > 0`, well-formed state
with clear excess bits and every `v ≤ N`, `find_next(v)` (the position
computed by `lower_bound(v)`) returns the smallest member `≥ v`, or `N` when
there is none; in particular `find_next(N) = N`, and over `N = 10` the state
`fill()` then `erase(3)` gives `find_next(3) = 4`. -/
theorem C5_find_next (W N : Nat) (data : List Nat) (v : Nat) (hW : 0 < W)
    (hWF : WF W N data) (hInv : Inv W N data) (hv : v ≤ N) :
    (v ≤ find_next W N data v ∧ find_next W N data v ≤ N ∧
      (∀ m, v ≤ m → m < find_next W N data v → contains W N data m = false) ∧
      (find_next W N data v < N → contains W N data (find_next W N data v) = true)) ∧
    find_next W N data N = N ∧
    find_next 8 10 (erase 8 10 (fill 8 10 (dflt 8 10)) 3).1 3 = 4 := by
  refine ⟨find_next_spec W N data v hW hWF hInv hv, ?_, by decide⟩
  unfold find_next
  dsimp only
  rw [if_pos rfl]

/-- C5, witness: `N = 10`, `W = 8`, the `fill()`-then-`erase(3)` state
`[192, 239]`, queried at `v = 3`. -/
theorem C5_witness :
    (3 ≤ find_next 8 10 [192, 239] 3 ∧ find_next 8 10 [192, 239] 3 ≤ 10 ∧
      (∀ m, 3 ≤ m → m < find_next 8 10 [192, 239] 3 →
        contains 8 10 [192, 239] m = false) ∧
      (find_next 8 10 [192, 239] 3 < 10 →
        contains 8 10 [192, 239] (find_next 8 10 [192, 239] 3) = true)) ∧
    find_next 8 10 [192, 239] 10 = 10 ∧
    find_next 8 10 (erase 8 10 (fill 8 10 (dflt 8 10)) 3).1 3 = 4 :=
  C5_find_next 8 10 [192, 239] 3 (by decide) ⟨by decide, by decide⟩
    ⟨by decide, by decide⟩ (by decide)

/-! ### Claim C6: insert-then-iterate round-trip -/

theorem dflt_WF (W N : Nat) : WF W N (dflt W N) := by
  refine ⟨length_replicate_storage W N, ?_⟩
  intro b hb
  rw [List.eq_of_mem_replicate hb]
  exact Nat.two_pow_pos W

theorem dflt_contains (W N x : Nat) : contains W N (dflt W N) x = false := by
  unfold contains
  split
  · rw [dflt_getD, Nat.zero_and]
    simp
  · rfl

theorem insert_WF (hW : 0 < W) (hv : v < N) (hWF : WF W N data) :
    WF W N (insert W N data v).1 := by
  have hN : 0 < N := by omega
  have hL := L_pos hW hN
  unfold insert
  dsimp only
  rw [if_pos hL]
  refine WF_of_getD (by rw [List.length_set, hWF.1]) ?_
  intro i hi
  rw [List.length_set] at hi
  rw [getD_set]
  split
  · refine Nat.or_lt_two_pow (WF_getD_lt hWF _) ?_
    rw [where_eq hW hv, single_bit_mask_eq hW (Nat.mod_lt v hW)]
    exact two_pow_lt_two_pow (by omega)
  · exact WF_getD_lt hWF i

/-- Membership after a single `insert`: the inserted bit plus the frame. -/
theorem insert_contains (hW : 0 < W) (hv : v < N) (hw : w < N) (hWF : WF W N data) :
    contains W N (insert W N data v).1 w =
      (contains W N data w || decide (w = v)) := by
  have hN : 0 < N := by omega
  have hL := L_pos hW hN
  have hwhich : which W N v < data.length := by
    rw [hWF.1]
    have := which_lt hW hv
    unfold num_storage_blocks
    omega
  have hmaskv : single_bit_mask W (where_ W N v) = 2 ^ (W - 1 - v % W) := by
    rw [where_eq hW hv, single_bit_mask_eq hW (Nat.mod_lt v hW)]
  by_cases hvw : w = v
  · subst hvw
    have h1 : contains W N (insert W N data w).1 w = true := by
      rw [contains_eq_testBit hW hw]
      unfold insert
      dsimp only
      rw [if_pos hL, getD_set,
        if_pos ⟨which_eq hW hw, by rw [← which_eq hW hw]; exact hwhich⟩,
        where_eq hW hw, single_bit_mask_eq hW (Nat.mod_lt w hW), Nat.testBit_or,
        Nat.testBit_two_pow_self, Bool.or_true]
    rw [h1]
    simp
  · have hres : contains W N (insert W N data v).1 w = contains W N data w := by
      by_cases hslot : num_logical_blocks W N - 1 - w / W =
          num_logical_blocks W N - 1 - v / W
      · have hbits : W - 1 - w % W ≠ W - 1 - v % W := fun hcon =>
          hvw (slot_offset_inj hW hw hv hslot hcon)
        have hget : ∀ y : Nat,
            ((data.set (which W N v) y).getD (num_logical_blocks W N - 1 - w / W) 0) =
              y := by
          intro y
          rw [getD_set,
            if_pos ⟨by rw [which_eq hW hv, ← hslot],
              by rw [hslot, ← which_eq hW hv]; exact hwhich⟩]
        rw [contains_eq_testBit hW hw, contains_eq_testBit hW hw]
        unfold insert
        dsimp only
        rw [if_pos hL, hget, hslot, ← which_eq hW hv, Nat.testBit_or, hmaskv,
          Nat.testBit_two_pow_of_ne (by omega), Bool.or_false]
      · have hget : ∀ y : Nat,
            ((data.set (which W N v) y).getD (num_logical_blocks W N - 1 - w / W) 0) =
              data.getD (num_logical_blocks W N - 1 - w / W) 0 := by
          intro y
          rw [getD_set, if_neg]
          intro hcon
          exact hslot (by rw [← hcon.1, which_eq hW hv])
        rw [contains_eq_testBit hW hw, contains_eq_testBit hW hw]
        unfold insert
        dsimp only
        rw [if_pos hL, hget]
    rw [hres, show decide (w = v) = false by simp [hvw], Bool.or_false]

/-- `insert` of a list of valid values: well-formedness, the invariant and
membership (a value is a member iff it was before or occurs in the list). -/
theorem insert_list_props (hW : 0 < W) :
    ∀ l (data : List Nat), WF W N data → Inv W N data → (∀ x ∈ l, x < N) →
      WF W N (insert_list W N data l) ∧ Inv W N (insert_list W N data l) ∧
      ∀ w, w < N → contains W N (insert_list W N data l) w =
        (contains W N data w || decide (w ∈ l)) := by
  intro l
  induction l with
  | nil =>
    intro data hWF hInv hl
    refine ⟨hWF, hInv, ?_⟩
    intro w hw
    simp [insert_list]
  | cons x xs ih =>
    intro data hWF hInv hl
    have hx : x < N := hl x (List.mem_cons_self x xs)
    have hWF2 := insert_WF hW hx hWF
    have hInv2 := insert_Inv hW hx hInv
    have hstep : insert_list W N data (x :: xs) =
        insert_list W N (insert W N data x).1 xs := rfl
    obtain ⟨p1, p2, p3⟩ := ih (insert W N data x).1 hWF2 hInv2
      (fun y hy => hl y (List.mem_cons_of_mem x hy))
    rw [hstep]
    refine ⟨p1, p2, ?_⟩
    intro w hw
    rw [p3 w hw, insert_contains hW hx hw hWF]
    by_cases h1 : w = x <;> by_cases h2 : w ∈ xs <;>
      simp [List.mem_cons, h1, h2]

/-- The iteration protocol enumerates exactly the members at or above the
start position, in ascending order (as a `filter` of the value range). -/
theorem iter_from_eq (W N : Nat) (data : List Nat) (hW : 0 < W) (hWF : WF W N data)
    (hInv : Inv W N data) :
    ∀ fuel pos, pos ≤ N → N - pos ≤ fuel →
      (pos < N → contains W N data pos = true) →
      iter_from W N data fuel pos =
        (List.range' pos (N - pos)).filter (fun m => contains W N data m) := by
  intro fuel
  induction fuel with
  | zero =>
    intro pos h1 h2 h3
    have hpN : pos = N := by omega
    subst hpN
    unfold iter_from
    rw [if_pos rfl, Nat.sub_self, List.range'_zero, List.filter_nil]
  | succ f ih =>
    intro pos h1 h2 h3
    by_cases hpN : pos = N
    · subst hpN
      unfold iter_from
      rw [if_pos rfl, Nat.sub_self, List.range'_zero, List.filter_nil]
    · have hpN' : pos < N := by omega
      obtain ⟨q1, q2, q3, q4⟩ := find_next_spec W N data (pos + 1) hW hWF hInv (by omega)
      have hq := ih (find_next W N data (pos + 1)) q2 (by omega) q4
      have hstep : iter_from W N data (f + 1) pos =
          pos :: iter_from W N data f (find_next W N data (pos + 1)) := by
        conv_lhs => unfold iter_from
        rw [if_neg hpN]
      rw [hstep, hq]
      have hcons : List.range' pos (N - pos) =
          pos :: List.range' (pos + 1) (N - pos - 1) := by
        conv_lhs => rw [show N - pos = (N - pos - 1) + 1 by omega]
        rw [List.range'_succ]
      have hsplit : List.range' (pos + 1) (N - pos - 1) =
          List.range' (pos + 1) (find_next W N data (pos + 1) - (pos + 1)) ++
            List.range' (find_next W N data (pos + 1))
              (N - find_next W N data (pos + 1)) := by
        have h5 := List.range'_append_1 (pos + 1)
          (find_next W N data (pos + 1) - (pos + 1))
          (N - find_next W N data (pos + 1))
        rw [show pos + 1 + (find_next W N data (pos + 1) - (pos + 1)) =
            find_next W N data (pos + 1) by omega] at h5
        rw [show N - find_next W N data (pos + 1) +
            (find_next W N data (pos + 1) - (pos + 1)) = N - pos - 1 by omega] at h5
        exact h5.symm
      have hnil : (List.range' (pos + 1)
          (find_next W N data (pos + 1) - (pos + 1))).filter
            (fun m => contains W N data m) = [] := by
        rw [List.filter_eq_nil_iff]
        intro a ha
        rw [List.mem_range'] at ha
        obtain ⟨i, hi, rfl⟩ := ha
        have h7 := q3 (pos + 1 + 1 * i) (by omega) (by omega)
        simpa using h7
      rw [hcons, List.filter_cons, if_pos (h3 hpN'), hsplit, List.filter_append,
        hnil, List.nil_append]

/-- `begin()`-to-`end()` iteration enumerates exactly the members, ascending. -/
theorem to_list_eq (W N : Nat) (data : List Nat) (hW : 0 < W) (hWF : WF W N data)
    (hInv : Inv W N data) :
    to_list W N data = (List.range' 0 N).filter (fun m => contains W N data m) := by
  rcases Nat.eq_zero_or_pos N with hN | hN
  · subst hN
    have hL : num_logical_blocks W 0 = 0 := (L_eq_zero_iff hW).2 rfl
    unfold to_list find_first
    dsimp only
    rw [if_neg (by omega), if_neg (by omega)]
    unfold iter_from
    rw [if_pos rfl, List.range'_zero, List.filter_nil]
  · unfold to_list
    rw [find_first_eq hW hN hWF]
    obtain ⟨q1, q2, q3, q4⟩ := find_next_spec W N data 0 hW hWF hInv (by omega)
    have h5 := iter_from_eq W N data hW hWF hInv N (find_next W N data 0) q2
      (by omega) q4
    rw [h5]
    have hsplit : List.range' 0 N =
        List.range' 0 (find_next W N data 0) ++
          List.range' (find_next W N data 0) (N - find_next W N data 0) := by
      have h6 := List.range'_append_1 0 (find_next W N data 0)
        (N - find_next W N data 0)
      rw [show 0 + find_next W N data 0 = find_next W N data 0 by omega] at h6
      rw [show N - find_next W N data 0 + find_next W N data 0 = N by omega] at h6
      exact h6.symm
    have hnil : (List.range' 0 (find_next W N data 0)).filter
        (fun m => contains W N data m) = [] := by
      rw [List.filter_eq_nil_iff]
      intro a ha
      rw [List.mem_range'] at ha
      obtain ⟨i, hi, rfl⟩ := ha
      have h7 := q3 (0 + 1 * i) (by omega) (by omega)
      simpa using h7
    rw [hsplit, List.filter_append, hnil, List.nil_append]

/-- C6: for every finite set of values `S ⊆ [0, N)` given as a list,
constructing an empty container, inserting exactly the elements of the list,
and iterating from `begin()` to `end()` yields exactly those elements in
strictly ascending order with no duplicates. -/
theorem C6_roundtrip (W N : Nat) (l : List Nat) (hW : 0 < W)
    (hl : ∀ x ∈ l, x < N) :
    List.Pairwise (· < ·) (to_list W N (insert_list W N (dflt W N) l)) ∧
    (∀ v, v ∈ to_list W N (insert_list W N (dflt W N) l) ↔ v ∈ l) := by
  obtain ⟨p1, p2, p3⟩ := insert_list_props (N := N) hW l (dflt W N)
    (dflt_WF W N) (dflt_Inv W N) hl
  rw [to_list_eq W N _ hW p1 p2]
  constructor
  · exact (List.pairwise_lt_range' 0 N).filter _
  · intro v
    rw [List.mem_filter, List.mem_range']
    constructor
    · rintro ⟨⟨i, hi, rfl⟩, hm⟩
      have hv : 0 + 1 * i < N := by omega
      rw [p3 _ hv, dflt_contains, Bool.false_or] at hm
      simpa using hm
    · intro hv
      have hvN : v < N := hl v hv
      refine ⟨⟨v, by omega, by omega⟩, ?_⟩
      rw [p3 v hvN, dflt_contains, Bool.false_or]
      simp [hv]

/-- C6, witness: insert `[5, 2, 9, 5]` over `N = 10`; iteration yields the
distinct values ascending. -/
theorem C6_witness :
    List.Pairwise (· < ·) (to_list 8 10 (insert_list 8 10 (dflt 8 10) [5, 2, 9, 5])) ∧
    (∀ v, v ∈ to_list 8 10 (insert_list 8 10 (dflt 8 10) [5, 2, 9, 5]) ↔
      v ∈ [5, 2, 9, 5]) :=
  C6_roundtrip 8 10 [5, 2, 9, 5] (by decide) (by decide)

/-! ### Claim C4: whole-container shifts -/

theorem no_excess_bits_eq_ones (hW : 0 < W) (hE : num_excess_bits W N = 0) :
    no_excess_bits W N = ones W := by
  apply Nat.eq_of_testBit_eq
  intro k
  rw [testBit_no_excess_bits hW, testBit_ones, hE]
  simp

theorem fill_length (W N : Nat) (data : List Nat) :
    (fill W N data).length = data.length := by
  unfold fill
  dsimp only
  split <;> split
  · exact List.length_set data 0 _
  · split
    · rw [List.length_set, List.length_set]
    · split
      · exact mapIdxD_length data _
      · rfl
  · exact List.length_set data 0 _
  · split
    · rw [List.length_set, List.length_set]
    · split
      · exact mapIdxD_length data _
      · rfl

/-- Uniform description of `fill`: every logical word becomes `ones`, except
word 0 which becomes `no_excess_bits` (equal to `ones` when there are no
excess bits). -/
theorem fill_getD (hW : 0 < W) (hL : 1 ≤ num_logical_blocks W N)
    (hlen : data.length = num_storage_blocks W N) (j : Nat) :
    (fill W N data).getD j 0 =
      if j < num_logical_blocks W N then
        (if j = 0 then no_excess_bits W N else ones W)
      else data.getD j 0 := by
  have hlenL : data.length = num_logical_blocks W N := by
    rw [hlen]
    unfold num_storage_blocks
    omega
  have hlen1 : 0 < data.length := by omega
  unfold fill
  dsimp only
  by_cases hE : num_excess_bits W N = 0
  · rw [if_pos hE, no_excess_bits_eq_ones hW hE]
    split
    · next h1 =>
      rw [getD_set]
      by_cases hj : j = 0
      · subst hj
        rw [if_pos (show 0 = 0 ∧ 0 < data.length from ⟨rfl, hlen1⟩),
          if_pos (show 0 < num_logical_blocks W N by omega),
          if_pos (show (0 : Nat) = 0 from rfl)]
      · rw [if_neg (show ¬(0 = j ∧ j < data.length) by omega),
          if_neg (show ¬j < num_logical_blocks W N by omega)]
    · split
      · next h2 =>
        rw [getD_set, List.length_set, getD_set]
        by_cases hj : j = 0
        · subst hj
          rw [if_neg (show ¬(1 = 0 ∧ (0 : Nat) < data.length) by omega),
            if_pos (show 0 = 0 ∧ 0 < data.length from ⟨rfl, hlen1⟩),
            if_pos (show 0 < num_logical_blocks W N by omega),
            if_pos (show (0 : Nat) = 0 from rfl)]
        · by_cases hj1 : j = 1
          · subst hj1
            rw [if_pos (show 1 = 1 ∧ 1 < data.length from ⟨rfl, by omega⟩),
              if_pos (show 1 < num_logical_blocks W N by omega),
              if_neg (show ¬(1 : Nat) = 0 by omega)]
          · rw [if_neg (show ¬(1 = j ∧ j < data.length) by omega),
              if_neg (show ¬(0 = j ∧ j < data.length) by omega),
              if_neg (show ¬j < num_logical_blocks W N by omega)]
      · split
        · next h3 =>
          rw [mapIdxD_getD]
          by_cases hj : j < data.length
          · rw [if_pos hj, if_pos (show j < num_logical_blocks W N by omega),
              if_pos (show j < num_logical_blocks W N by omega), ite_self]
          · rw [if_neg hj, if_neg (show ¬j < num_logical_blocks W N by omega),
              getD_eq_zero_of_le _ _ (by omega)]
        · omega
  · rw [if_neg hE]
    split
    · next h1 =>
      rw [getD_set]
      by_cases hj : j = 0
      · subst hj
        rw [if_pos (show 0 = 0 ∧ 0 < data.length from ⟨rfl, hlen1⟩),
          if_pos (show 0 < num_logical_blocks W N by omega),
          if_pos (show (0 : Nat) = 0 from rfl)]
      · rw [if_neg (show ¬(0 = j ∧ j < data.length) by omega),
          if_neg (show ¬j < num_logical_blocks W N by omega)]
    · split
      · next h2 =>
        rw [getD_set, List.length_set, getD_set]
        by_cases hj : j = 0
        · subst hj
          rw [if_neg (show ¬(1 = 0 ∧ (0 : Nat) < data.length) by omega),
            if_pos (show 0 = 0 ∧ 0 < data.length from ⟨rfl, hlen1⟩),
            if_pos (show 0 < num_logical_blocks W N by omega),
            if_pos (show (0 : Nat) = 0 from rfl)]
        · by_cases hj1 : j = 1
          · subst hj1
            rw [if_pos (show 1 = 1 ∧ 1 < data.length from ⟨rfl, by omega⟩),
              if_pos (show 1 < num_logical_blocks W N by omega),
              if_neg (show ¬(1 : Nat) = 0 by omega)]
          · rw [if_neg (show ¬(1 = j ∧ j < data.length) by omega),
              if_neg (show ¬(0 = j ∧ j < data.length) by omega),
              if_neg (show ¬j < num_logical_blocks W N by omega)]
      · split
        · next h3 =>
          rw [mapIdxD_getD]
          by_cases hj : j < data.length
          · by_cases hj0 : j = 0
            · rw [if_pos hj, if_pos hj0,
                if_pos (show j < num_logical_blocks W N by omega), if_pos hj0]
            · rw [if_pos hj, if_neg hj0,
                if_pos (show j < num_logical_blocks W N by omega),
                if_pos (show j < num_logical_blocks W N by omega), if_neg hj0]
          · rw [if_neg hj, if_neg (show ¬j < num_logical_blocks W N by omega),
              getD_eq_zero_of_le _ _ (by omega)]
        · omega

theorem and_no_excess_of_Inv (hW : 0 < W) (h0 : data.getD 0 0 < 2 ^ W)
    (hInv : Inv W N data) :
    data.getD 0 0 &&& no_excess_bits W N = data.getD 0 0 := by
  apply Nat.eq_of_testBit_eq
  intro k
  rw [Nat.testBit_and, testBit_no_excess_bits hW]
  by_cases hk : k < W
  · by_cases hkE : num_excess_bits W N ≤ k
    · simp [hk, hkE]
    · rw [Inv_testBit hInv k (by omega)]
      simp
  · have h5 : (data.getD 0 0).testBit k = false :=
      Nat.testBit_lt_two_pow
        (Nat.lt_of_lt_of_le h0 (Nat.pow_le_pow_right (by omega) (by omega)))
    simp only [List.getD_eq_getElem?_getD] at h5
    simp [h5]

theorem clear_excess_bits_id (hW : 0 < W) (h0 : data.getD 0 0 < 2 ^ W)
    (hInv : Inv W N data) : clear_excess_bits W N data = data := by
  unfold clear_excess_bits
  split
  · rw [and_no_excess_of_Inv hW h0 hInv, set_getD_self]
  · rfl

/-- `operator<<=(0)` is the identity on well-formed states with clear excess
bits (the multi-block path returns early; the one-block path shifts by zero
and re-clears the already clear excess bits). -/
theorem shl_zero (hW : 0 < W) (hWF : WF W N data) (hInv : Inv W N data) :
    shl_assign W N data 0 = data := by
  unfold shl_assign
  dsimp only
  split
  · rw [Nat.shiftRight_zero, set_getD_self]
    exact clear_excess_bits_id hW (WF_getD_lt hWF 0) hInv
  · split
    · rw [if_pos rfl]
    · exact clear_excess_bits_id hW (WF_getD_lt hWF 0) hInv

/-- `operator>>=(0)` is the identity on well-formed states. -/
theorem shr_zero (hW : 0 < W) (hWF : WF W N data) :
    shr_assign W N data 0 = data := by
  unfold shr_assign
  dsimp only
  split
  · rw [Nat.shiftLeft_zero, Nat.mod_eq_of_lt (WF_getD_lt hWF 0), set_getD_self]
  · split
    · rw [if_pos rfl]
    · rfl

theorem clear_excess_bits_getD (W N : Nat) (data : List Nat)
    (hlen : 0 < data.length) (k : Nat) :
    (clear_excess_bits W N data).getD k 0 =
      if k = 0 ∧ num_excess_bits W N ≠ 0 then
        data.getD 0 0 &&& no_excess_bits W N
      else data.getD k 0 := by
  unfold clear_excess_bits
  split
  · next hE =>
    rw [getD_set]
    by_cases hk : k = 0
    · subst hk
      rw [if_pos (show 0 = 0 ∧ 0 < data.length from ⟨rfl, hlen⟩),
        if_pos (show 0 = 0 ∧ num_excess_bits W N ≠ 0 from ⟨rfl, hE⟩)]
    · rw [if_neg (show ¬(0 = k ∧ k < data.length) by omega),
        if_neg (show ¬(k = 0 ∧ num_excess_bits W N ≠ 0) by omega)]
  · next hE =>
    rw [if_neg (show ¬(k = 0 ∧ num_excess_bits W N ≠ 0) by omega)]

/-- Shifting the full container left by one moves every member up: the result
holds exactly the values of `[1, N)` (the code maps member `v` to `v + 1`,
drops the overflowing image of `N - 1` via the excess bits, and vacates
position `0`). -/
theorem shl_one_full (W N : Nat) (hW : 0 < W) (hN : 1 < N) :
    ∀ v, v < N →
      contains W N (shl_assign W N (fill W N (dflt W N)) 1) v = decide (1 ≤ v) := by
  have hN0 : 0 < N := by omega
  have hL := L_pos hW hN0
  have hE := num_excess_bits_lt (W := W) (N := N) hW
  have hlen0 := length_replicate_storage W N
  have hs : ∀ k, (fill W N (dflt W N)).getD k 0 =
      if k < num_logical_blocks W N then
        (if k = 0 then no_excess_bits W N else ones W)
      else 0 := by
    intro k
    rw [fill_getD hW hL hlen0 k, dflt_getD]
  have hslen : (fill W N (dflt W N)).length = num_storage_blocks W N := by
    rw [fill_length, hlen0]
  have hlenL : (fill W N (dflt W N)).length = num_logical_blocks W N := by
    rw [hslen]
    unfold num_storage_blocks
    omega
  by_cases hL1 : num_logical_blocks W N = 1
  · -- single block: the word becomes `no_excess_bits >>> 1`, re-masked
    have hNW : N ≤ W := N_le_W_of_L_le_one hW (by omega)
    have hE1 : num_excess_bits W N = 1 * W - N := by
      unfold num_excess_bits num_bits
      rw [hL1]
    intro v hv
    rw [contains_eq_testBit hW hv]
    have hres : shl_assign W N (fill W N (dflt W N)) 1 =
        clear_excess_bits W N ((fill W N (dflt W N)).set 0
          ((fill W N (dflt W N)).getD 0 0 >>> 1)) := by
      unfold shl_assign
      dsimp only
      rw [if_pos hL1]
    have hvW : v / W = 0 := Nat.div_eq_of_lt (by omega)
    have hvm : v % W = v := Nat.mod_eq_of_lt (by omega)
    have hset0 : ((fill W N (dflt W N)).set 0
        ((fill W N (dflt W N)).getD 0 0 >>> 1)).getD 0 0 =
        (fill W N (dflt W N)).getD 0 0 >>> 1 := by
      rw [getD_set, if_pos (show 0 = 0 ∧ 0 < (fill W N (dflt W N)).length from
        ⟨rfl, by rw [hlenL]; omega⟩)]
    have hs0 : (fill W N (dflt W N)).getD 0 0 = no_excess_bits W N := by
      rw [hs 0, if_pos (show 0 < num_logical_blocks W N by omega),
        if_pos (show (0 : Nat) = 0 from rfl)]
    rw [hres, hvW, hL1, hvm, Nat.sub_zero, Nat.sub_self, clear_excess_bits_getD]
    by_cases hEz : num_excess_bits W N ≠ 0
    · rw [if_pos (show (0 : Nat) = 0 ∧ num_excess_bits W N ≠ 0 from ⟨rfl, hEz⟩),
        hset0, hs0]
      simp only [Nat.testBit_and, Nat.testBit_shiftRight, testBit_no_excess_bits hW]
      by_cases h1v : 1 ≤ v
      · have c1 : num_excess_bits W N ≤ 1 + (W - 1 - v) := by omega
        have c2 : 1 + (W - 1 - v) < W := by omega
        have c3 : num_excess_bits W N ≤ W - 1 - v := by omega
        have c4 : W - 1 - v < W := by omega
        simp [c1, c2, c3, c4, h1v]
      · have c2 : ¬1 + (W - 1 - v) < W := by omega
        simp [c2, h1v]
    · rw [if_neg (show ¬((0 : Nat) = 0 ∧ num_excess_bits W N ≠ 0) by omega),
        hset0, hs0]
      simp only [Nat.testBit_shiftRight, testBit_no_excess_bits hW]
      by_cases h1v : 1 ≤ v
      · have c1 : num_excess_bits W N ≤ 1 + (W - 1 - v) := by omega
        have c2 : 1 + (W - 1 - v) < W := by omega
        simp [c1, c2, h1v]
      · have c2 : ¬1 + (W - 1 - v) < W := by omega
        simp [c2, h1v]
    rw [List.length_set, hlenL]
    omega
  · -- at least two blocks
    have hL2 : 2 ≤ num_logical_blocks W N := by omega
    intro v hv
    have hvW := div_W_lt_L hW hv
    have hdm := Nat.div_add_mod v W
    have hvm := Nat.mod_lt v hW
    have h0 := Nat.zero_le (v / W)
    rw [contains_eq_testBit hW hv]
    unfold shl_assign
    dsimp only
    rw [if_neg hL1, if_pos hL2, if_neg (show ¬(1 : Nat) = 0 by omega)]
    by_cases hW1 : W = 1
    · -- one-bit blocks: the shift is a pure word copy
      subst hW1
      have hLN : num_logical_blocks 1 N = N := by
        unfold num_logical_blocks
        rw [Nat.add_sub_cancel, Nat.div_one]
      have hE0 : num_excess_bits 1 N = 0 := by
        unfold num_excess_bits num_bits
        rw [hLN]
        omega
      rw [if_pos (show (1 : Nat) % 1 = 0 from rfl)]
      rw [clear_excess_bits_getD,
        if_neg (show ¬(num_logical_blocks 1 N - 1 - v / 1 = 0 ∧
          num_excess_bits 1 N ≠ 0) by omega),
        mapIdxD_getD,
        if_pos (show num_logical_blocks 1 N - 1 - v / 1 <
          (fill 1 N (dflt 1 N)).length by rw [hlenL]; omega)]
      simp only [Nat.div_one, Nat.mod_one]
      by_cases h1v : 1 ≤ v
      · rw [if_pos (show num_logical_blocks 1 N - 1 - v <
            num_logical_blocks 1 N - 1 by omega)]
        rw [hs, if_pos (show num_logical_blocks 1 N - 1 - v + 1 <
            num_logical_blocks 1 N by omega),
          if_neg (show ¬num_logical_blocks 1 N - 1 - v + 1 = 0 by omega)]
        rw [testBit_ones]
        simp [h1v]
      · rw [if_neg (show ¬num_logical_blocks 1 N - 1 - v <
            num_logical_blocks 1 N - 1 by omega)]
        rw [Nat.zero_testBit]
        simp [h1v]
      rw [mapIdxD_length, hlenL]
      omega
    · -- block width at least two: shift by one bit with carry between words
      have hW2 : 2 ≤ W := by omega
      have h1W : (1 : Nat) % W = 1 := Nat.mod_eq_of_lt (by omega)
      have h1d : (1 : Nat) / W = 0 := Nat.div_eq_of_lt (by omega)
      rw [if_neg (show ¬(1 : Nat) % W = 0 by rw [h1W]; omega)]
      by_cases hk0 : v / W = num_logical_blocks W N - 1
      · -- slot 0 of the result: the block of the largest values
        have hEd : num_excess_bits W N = num_bits W N - N := rfl
        have hbd : num_bits W N = num_logical_blocks W N * W := rfl
        have h6 := le_L_mul_W (W := W) (N := N) hW
        have h7 : num_logical_blocks W N * W =
            W * (num_logical_blocks W N - 1) + W := by
          rw [Nat.mul_comm]
          conv_lhs => rw [show num_logical_blocks W N =
            num_logical_blocks W N - 1 + 1 by omega]
          rw [Nat.mul_succ]
        rw [hk0] at hdm
        have h8 : W * 1 ≤ W * (num_logical_blocks W N - 1) :=
          Nat.mul_le_mul_left W (by omega)
        have hvlow : v % W < W - num_excess_bits W N := by omega
        have hv1 : 1 ≤ v := by omega
        rw [hk0, Nat.sub_self, clear_excess_bits_getD, mapIdxD_getD,
          if_pos (show 0 < (fill W N (dflt W N)).length by rw [hlenL]; omega)]
        rw [h1d, h1W]
        simp only [Nat.add_zero, Nat.zero_add, Nat.sub_zero]
        rw [if_pos (show 0 < num_logical_blocks W N - 1 by omega)]
        have hg0 : (fill W N (dflt W N)).getD 0 0 = no_excess_bits W N := by
          rw [hs 0, if_pos (show 0 < num_logical_blocks W N by omega),
            if_pos (show (0 : Nat) = 0 from rfl)]
        have hg1 : (fill W N (dflt W N)).getD 1 0 = ones W := by
          rw [hs 1, if_pos (show 1 < num_logical_blocks W N by omega),
            if_neg (show ¬(1 : Nat) = 0 by omega)]
        rw [hg0, hg1]
        have hjE : num_excess_bits W N ≤ W - 1 - v % W := by omega
        have hjW : W - 1 - v % W < W := by omega
        by_cases hEz : num_excess_bits W N ≠ 0
        · rw [if_pos (show True ∧ num_excess_bits W N ≠ 0 from
            ⟨trivial, hEz⟩)]
          simp only [Nat.testBit_and, Nat.testBit_or, Nat.testBit_shiftRight,
            Nat.testBit_mod_two_pow, Nat.testBit_shiftLeft,
            testBit_no_excess_bits hW, testBit_ones]
          by_cases hj0 : v % W = 0
          · have c1 : W - 1 ≤ W - 1 - v % W := by omega
            have c2 : W - 1 - v % W - (W - 1) < W := by omega
            simp [c1, c2, hjW, hjE, hv1]
            omega
          · have c1 : 1 + (W - 1 - v % W) < W := by omega
            have c2 : num_excess_bits W N ≤ 1 + (W - 1 - v % W) := by omega
            simp [c1, c2, hjW, hjE, hv1]
        · rw [if_neg (show ¬(True ∧ num_excess_bits W N ≠ 0) from
            fun h => hEz h.2)]
          simp only [Nat.testBit_or, Nat.testBit_shiftRight,
            Nat.testBit_mod_two_pow, Nat.testBit_shiftLeft,
            testBit_no_excess_bits hW, testBit_ones]
          by_cases hj0 : v % W = 0
          · have c1 : W - 1 ≤ W - 1 - v % W := by omega
            have c2 : W - 1 - v % W - (W - 1) < W := by omega
            simp [c1, c2, hjW, hv1]
            omega
          · have c1 : 1 + (W - 1 - v % W) < W := by omega
            have c2 : num_excess_bits W N ≤ 1 + (W - 1 - v % W) := by omega
            simp [c1, c2, hjW, hv1]
        rw [mapIdxD_length, hlenL]
        omega
      · by_cases hkT : v / W = 0
        · -- slot L-1: the block of the smallest values
          rw [hkT] at hdm
          have hvv : v % W = v := by omega
          have hvltW : v < W := by omega
          rw [hkT, clear_excess_bits_getD,
            if_neg (show ¬(num_logical_blocks W N - 1 - 0 = 0 ∧
              num_excess_bits W N ≠ 0) by omega),
            mapIdxD_getD,
            if_pos (show num_logical_blocks W N - 1 - 0 <
              (fill W N (dflt W N)).length by rw [hlenL]; omega)]
          rw [h1d, h1W]
          rw [if_neg (show ¬(num_logical_blocks W N - 1 - 0 <
              num_logical_blocks W N - 1 - 0) by omega),
            if_pos (show num_logical_blocks W N - 1 - 0 =
              num_logical_blocks W N - 1 - 0 from rfl)]
          rw [hs (num_logical_blocks W N - 1),
            if_pos (show num_logical_blocks W N - 1 < num_logical_blocks W N by
              omega),
            if_neg (show ¬num_logical_blocks W N - 1 = 0 by omega)]
          rw [Nat.testBit_shiftRight, testBit_ones, hvv]
          by_cases h1v : 1 ≤ v
          · have c1 : 1 + (W - 1 - v) < W := by omega
            simp [c1, h1v]
          · have c1 : ¬1 + (W - 1 - v) < W := by omega
            simp [c1, h1v]
          rw [mapIdxD_length, hlenL]
          omega
        · -- middle slots: both source words are all-ones
          have h9 : W * 1 ≤ W * (v / W) := Nat.mul_le_mul_left W (by omega)
          have hv1 : 1 ≤ v := by omega
          rw [clear_excess_bits_getD,
            if_neg (show ¬(num_logical_blocks W N - 1 - v / W = 0 ∧
              num_excess_bits W N ≠ 0) by omega),
            mapIdxD_getD,
            if_pos (show num_logical_blocks W N - 1 - v / W <
              (fill W N (dflt W N)).length by rw [hlenL]; omega)]
          rw [h1d, h1W]
          rw [if_pos (show num_logical_blocks W N - 1 - v / W <
              num_logical_blocks W N - 1 - 0 by omega)]
          simp only [Nat.add_zero]
          have hg : (fill W N (dflt W N)).getD
              (num_logical_blocks W N - 1 - v / W) 0 = ones W := by
            rw [hs, if_pos (show num_logical_blocks W N - 1 - v / W <
                num_logical_blocks W N by omega),
              if_neg (show ¬num_logical_blocks W N - 1 - v / W = 0 by omega)]
          have hg' : (fill W N (dflt W N)).getD
              (num_logical_blocks W N - 1 - v / W + 1) 0 = ones W := by
            rw [hs, if_pos (show num_logical_blocks W N - 1 - v / W + 1 <
                num_logical_blocks W N by omega),
              if_neg (show ¬num_logical_blocks W N - 1 - v / W + 1 = 0 by omega)]
          rw [hg, hg']
          simp only [Nat.testBit_or, Nat.testBit_shiftRight,
            Nat.testBit_mod_two_pow, Nat.testBit_shiftLeft, testBit_ones]
          have hjW : W - 1 - v % W < W := by omega
          by_cases hj0 : v % W = 0
          · have c1 : W - 1 ≤ W - 1 - v % W := by omega
            have c2 : W - 1 - v % W - (W - 1) < W := by omega
            simp [c1, c2, hjW, hv1]
            omega
          · have c1 : 1 + (W - 1 - v % W) < W := by omega
            simp [c1, hv1]
          rw [mapIdxD_length, hlenL]
          omega

/-- C4: refuted as stated.  With `W = 8`, `N = 8`, filling the container and
shifting left by one yields the member set `[1, 8)`, not the claimed
`[0, 7)`: the code's `operator<<=` maps each member `v` to `v + 1` (position
`0` is vacated), so the claim fails at `v = 0` (and at `v = 7`). -/
theorem C4_counterexample :
    ¬∀ v, v < 8 →
      contains 8 8 (shl_assign 8 8 (fill 8 8 (dflt 8 8)) 1) v = decide (v < 7) := by
  decide

/-- C4 (amended): for every capacity `N > 1`, shifting the full container
left by one with `operator<<=` yields the set containing exactly the values
in `[1, N)` — the code maps member `v` to `v + 1`, the image `N` of `N - 1`
is discarded by the excess-bit clearing, and `0` is vacated (the claimed
result `[0, N-1)` holds only after mirroring the direction convention); and
shifting any well-formed state by `0`, in either direction, leaves the
stored state unchanged. -/
theorem C4_shift (W N : Nat) (data : List Nat) (hW : 0 < W)
    (hWF : WF W N data) (hInv : Inv W N data) :
    (1 < N → ∀ v, v < N →
      contains W N (shl_assign W N (fill W N (dflt W N)) 1) v = decide (1 ≤ v)) ∧
    shl_assign W N data 0 = data ∧ shr_assign W N data 0 = data :=
  ⟨fun hN => shl_one_full W N hW hN, shl_zero hW hWF hInv, shr_zero hW hWF⟩

theorem C4_witness :
    (0 < 8 ∧ WF 8 10 [0, 32] ∧ Inv 8 10 [0, 32]) ∧
      ((1 < 10 → ∀ v, v < 10 →
        contains 8 10 (shl_assign 8 10 (fill 8 10 (dflt 8 10)) 1) v =
          decide (1 ≤ v)) ∧
      shl_assign 8 10 [0, 32] 0 = [0, 32] ∧
        shr_assign 8 10 [0, 32] 0 = [0, 32]) :=
  ⟨⟨by decide, ⟨by decide, by decide⟩, ⟨by decide, by decide⟩⟩,
    C4_shift 8 10 [0, 32] (by decide) ⟨by decide, by decide⟩
      ⟨by decide, by decide⟩⟩


/-! ### Claims C1 and C2: return values of insert and erase -/

/-- C1, counterexample: over `N = 8`, `W = 8`, the state `[16]` is the set
`{3}`; `insert(3)` nevertheless returns `true`, so the returned boolean is
not "whether the value was newly added". -/
theorem C1_counterexample :
    ¬(((insert 8 8 [16] 3).2 = true) ↔ contains 8 8 [16] 3 = false) := by
  decide

/-- C1 (amended): for every capacity `N > 0` and every `v ∈ [0, N)`,
`insert(v)` sets the bit of `v` (so `v` is a member afterwards) and returns a
pair whose boolean component is always `true`, regardless of whether `v` was
already a member. -/
theorem C1_insert_always_true (W N : Nat) (data : List Nat) (x : Nat)
    (hW : 0 < W) (hx : x < N) (hlen : data.length = num_storage_blocks W N) :
    (insert W N data x).2 = true ∧
      contains W N (insert W N data x).1 x = true := by
  refine ⟨rfl, ?_⟩
  have hN : 0 < N := by omega
  have hL := L_pos hW hN
  rw [contains_eq_testBit hW hx]
  unfold insert
  simp only [if_pos hL]
  rw [getD_set]
  have hwhich : which W N x < data.length := by
    rw [hlen]
    have := which_lt hW hx
    unfold num_storage_blocks
    omega
  rw [if_pos ⟨which_eq hW hx, by rw [← which_eq hW hx]; exact hwhich⟩]
  rw [where_eq hW hx, single_bit_mask_eq hW (Nat.mod_lt x hW),
    Nat.testBit_or, Nat.testBit_two_pow_self, Bool.or_true]

/-- C1, witness. -/
theorem C1_witness :
    (insert 8 8 [16] 3).2 = true ∧ contains 8 8 (insert 8 8 [16] 3).1 3 = true :=
  C1_insert_always_true 8 8 [16] 3 (by decide) (by decide) (by decide)

/-- C2, counterexample: over `N = 8`, `W = 8`, the empty state `[0]` does not
contain `3`, yet `erase(3)` returns `1`, not the number of elements removed. -/
theorem C2_counterexample :
    ¬((erase 8 8 [0] 3).2 = if contains 8 8 [0] 3 = true then 1 else 0) := by
  decide

/-- C2 (amended): for every capacity `N > 0` and every `v ∈ [0, N)`,
`erase(v)` clears the bit of `v` (so `v` is absent afterwards) and returns the
constant `1` whether or not `v` was a member; on an absent value the stored
state is unchanged (the erasure is a state-level no-op returning 1, not 0). -/
theorem C2_erase_always_one (W N : Nat) (data : List Nat) (x : Nat)
    (hW : 0 < W) (hx : x < N) (hWF : WF W N data) :
    (erase W N data x).2 = 1 ∧
      contains W N (erase W N data x).1 x = false ∧
      (contains W N data x = false → (erase W N data x).1 = data) := by
  have hN : 0 < N := by omega
  have hL := L_pos hW hN
  have hwhich : which W N x < data.length := by
    rw [hWF.1]
    have := which_lt hW hx
    unfold num_storage_blocks
    omega
  have hword : data.getD (which W N x) 0 < 2 ^ W := WF_getD_lt hWF _
  have hmask : single_bit_mask W (where_ W N x) < 2 ^ W := by
    rw [where_eq hW hx, single_bit_mask_eq hW (Nat.mod_lt x hW)]
    exact two_pow_lt_two_pow (by omega)
  refine ⟨rfl, ?_, ?_⟩
  · rw [contains_eq_testBit hW hx]
    unfold erase
    simp only [if_pos hL]
    rw [getD_set]
    rw [if_pos ⟨which_eq hW hx, by rw [← which_eq hW hx]; exact hwhich⟩]
    rw [Nat.testBit_and, testBit_bnot hmask]
    rw [where_eq hW hx, single_bit_mask_eq hW (Nat.mod_lt x hW),
      Nat.testBit_two_pow_self]
    simp
  · intro habsent
    rw [contains_eq_testBit hW hx] at habsent
    unfold erase
    simp only [if_pos hL]
    have hw2 : data.getD (which W N x) 0 &&&
        bnot W (single_bit_mask W (where_ W N x)) = data.getD (which W N x) 0 := by
      apply Nat.eq_of_testBit_eq
      intro j
      rw [Nat.testBit_and, testBit_bnot hmask]
      by_cases hj : j < W
      · by_cases hjk : j = W - 1 - x % W
        · subst hjk
          rw [← which_eq hW hx] at habsent
          rw [habsent]
          simp
        · rw [where_eq hW hx, single_bit_mask_eq hW (Nat.mod_lt x hW),
            Nat.testBit_two_pow_of_ne (by omega)]
          simp [hj]
      · have h0 : (data.getD (which W N x) 0).testBit j = false :=
          Nat.testBit_lt_two_pow
            (Nat.lt_of_lt_of_le hword (Nat.pow_le_pow_right (by omega) (by omega)))
        rw [h0]
        simp
    rw [hw2, set_getD_self]

/-- C2, witness (erasing an absent value from `{0,1}` over `N = 8`). -/
theorem C2_witness :
    (erase 8 8 [192] 3).2 = 1 ∧
      contains 8 8 (erase 8 8 [192] 3).1 3 = false ∧
      (contains 8 8 [192] 3 = false → (erase 8 8 [192] 3).1 = [192]) :=
  C2_erase_always_one 8 8 [192] 3 (by decide) (by decide)
    ⟨by decide, by decide⟩

/-! ### Claim C10: insert, erase, replace only touch the addressed bit -/

/-- C10: for every capacity `N > 0` and values `v ≠ w` in `[0, N)`, each of
`insert(v)`, `erase(v)` and `replace(v)` leaves the membership of `w`
unchanged: only the bit addressed by `v` is modified. -/
theorem C10_frame (W N : Nat) (data : List Nat) (v w : Nat) (hW : 0 < W)
    (hv : v < N) (hw : w < N) (hne : w ≠ v) (hWF : WF W N data) :
    contains W N (insert W N data v).1 w = contains W N data w ∧
      contains W N (erase W N data v).1 w = contains W N data w ∧
      contains W N (replace W N data v) w = contains W N data w := by
  have hN : 0 < N := by omega
  have hL := L_pos hW hN
  have hwhich : which W N v < data.length := by
    rw [hWF.1]
    have := which_lt hW hv
    unfold num_storage_blocks
    omega
  have hmaskv : single_bit_mask W (where_ W N v) = 2 ^ (W - 1 - v % W) := by
    rw [where_eq hW hv, single_bit_mask_eq hW (Nat.mod_lt v hW)]
  have hmasklt : single_bit_mask W (where_ W N v) < 2 ^ W := by
    rw [hmaskv]; exact two_pow_lt_two_pow (by omega)
  by_cases hslot : num_logical_blocks W N - 1 - w / W = num_logical_blocks W N - 1 - v / W
  · -- same storage word: the touched bit differs from the bit of `w`
    have hbits : W - 1 - w % W ≠ W - 1 - v % W := by
      intro hcon
      exact hne (slot_offset_inj hW hw hv hslot hcon)
    have hget : ∀ y : Nat,
        ((data.set (which W N v) y).getD (num_logical_blocks W N - 1 - w / W) 0) = y := by
      intro y
      rw [getD_set, if_pos ⟨by rw [which_eq hW hv, ← hslot], by rw [hslot, ← which_eq hW hv]; exact hwhich⟩]
    refine ⟨?_, ?_, ?_⟩
    · rw [contains_eq_testBit hW hw, contains_eq_testBit hW hw]
      unfold insert
      simp only [if_pos hL]
      rw [hget, hslot, ← which_eq hW hv, Nat.testBit_or, hmaskv,
        Nat.testBit_two_pow_of_ne (by omega), Bool.or_false]
    · rw [contains_eq_testBit hW hw, contains_eq_testBit hW hw]
      unfold erase
      simp only [if_pos hL]
      rw [hget, hslot, ← which_eq hW hv, Nat.testBit_and, testBit_bnot hmasklt,
        hmaskv, Nat.testBit_two_pow_of_ne (by omega)]
      have hjw : W - 1 - w % W < W := by omega
      simp [hjw]
    · rw [contains_eq_testBit hW hw, contains_eq_testBit hW hw]
      unfold replace
      simp only [if_pos hL]
      rw [hget, hslot, ← which_eq hW hv, Nat.testBit_xor, hmaskv,
        Nat.testBit_two_pow_of_ne (by omega), Bool.xor_false]
  · -- different storage words: the write does not touch the word of `w`
    have hget : ∀ y : Nat,
        ((data.set (which W N v) y).getD (num_logical_blocks W N - 1 - w / W) 0) =
          data.getD (num_logical_blocks W N - 1 - w / W) 0 := by
      intro y
      rw [getD_set]
      rw [if_neg]
      intro hcon
      exact hslot (by rw [← hcon.1, which_eq hW hv])
    refine ⟨?_, ?_, ?_⟩
    · rw [contains_eq_testBit hW hw, contains_eq_testBit hW hw]
      unfold insert
      simp only [if_pos hL]
      rw [hget]
    · rw [contains_eq_testBit hW hw, contains_eq_testBit hW hw]
      unfold erase
      simp only [if_pos hL]
      rw [hget]
    · rw [contains_eq_testBit hW hw, contains_eq_testBit hW hw]
      unfold replace
      simp only [if_pos hL]
      rw [hget]

/-- C10, witness: over `N = 10`, `W = 8`, state `{2, 9}`; operating on `v = 2`
leaves membership of `w = 9` unchanged. -/
theorem C10_witness :
    contains 8 10 (insert 8 10 [64, 32] 2).1 9 = contains 8 10 [64, 32] 9 ∧
      contains 8 10 (erase 8 10 [64, 32] 2).1 9 = contains 8 10 [64, 32] 9 ∧
      contains 8 10 (replace 8 10 [64, 32] 2) 9 = contains 8 10 [64, 32] 9 :=
  C10_frame 8 10 [64, 32] 2 9 (by decide) (by decide) (by decide) (by decide)
    ⟨by decide, by decide⟩

/-! ### Claim C3: three-way comparison -/

theorem reverse_getD (l : List Nat) (j : Nat) (hj : j < l.length) :
    l.reverse.getD j 0 = l.getD (l.length - 1 - j) 0 := by
  rw [List.getD_eq_getElem?_getD, List.getD_eq_getElem?_getD,
    List.getElem?_eq_getElem (by simpa using hj),
    List.getElem?_eq_getElem (by omega)]
  simp [List.getElem_reverse]

theorem lexCmp3_cons (x y : Nat) (xs ys : List Nat) :
    lexCmp3 (x :: xs) (y :: ys) =
      match compare x y with
      | Ordering.eq => lexCmp3 xs ys
      | c => c := rfl

theorem lexCmp3_single (x y : Nat) : lexCmp3 [y] [x] = compare y x := by
  rw [lexCmp3_cons]
  cases hc : compare y x <;> rfl

theorem lexCmp3_eq_iff : ∀ xs ys : List Nat, xs.length = ys.length →
    (lexCmp3 xs ys = Ordering.eq ↔ xs = ys)
  | [], [], _ => by
    constructor
    · intro _
      rfl
    · intro _
      rfl
  | [], y :: ys, h => by
    simp only [List.length_nil, List.length_cons] at h
    exact absurd h (by omega)
  | x :: xs, [], h => by
    simp only [List.length_nil, List.length_cons] at h
    exact absurd h (by omega)
  | x :: xs, y :: ys, h => by
    have ih := lexCmp3_eq_iff xs ys (by
      simp only [List.length_cons] at h
      omega)
    rw [lexCmp3_cons]
    cases hc : compare x y
    · constructor
      · intro h2
        exact Ordering.noConfusion h2
      · intro h2
        injection h2 with h1 _
        exact absurd h1 (by have := Nat.compare_eq_lt.1 hc; omega)
    · have hxy := Nat.compare_eq_eq.1 hc
      constructor
      · intro h2
        have h3 : xs = ys := ih.1 h2
        rw [hxy, h3]
      · intro h2
        injection h2 with h1 h3
        exact ih.2 h3
    · constructor
      · intro h2
        exact Ordering.noConfusion h2
      · intro h2
        injection h2 with h1 _
        exact absurd h1 (by have := Nat.compare_eq_gt.1 hc; omega)

theorem lexCmp3_first_diff : ∀ (xs ys : List Nat) (i : Nat),
    (∀ j, j < i → xs.getD j 0 = ys.getD j 0) →
    i < xs.length → i < ys.length →
    xs.getD i 0 ≠ ys.getD i 0 →
    lexCmp3 xs ys = compare (xs.getD i 0) (ys.getD i 0)
  | [], ys, i, hpre, hx, hy, hne => by
    simp only [List.length_nil] at hx
    exact absurd hx (by omega)
  | x :: xs, [], i, hpre, hx, hy, hne => by
    simp only [List.length_nil] at hy
    exact absurd hy (by omega)
  | x :: xs, y :: ys, 0, hpre, hx, hy, hne => by
    have e1 : (x :: xs).getD 0 0 = x := rfl
    have e2 : (y :: ys).getD 0 0 = y := rfl
    rw [e1, e2] at hne ⊢
    rw [lexCmp3_cons]
    cases hc : compare x y
    · rfl
    · exact absurd (Nat.compare_eq_eq.1 hc) hne
    · rfl
  | x :: xs, y :: ys, i + 1, hpre, hx, hy, hne => by
    have h00 := hpre 0 (by omega)
    have e1 : (x :: xs).getD 0 0 = x := rfl
    have e2 : (y :: ys).getD 0 0 = y := rfl
    rw [e1, e2] at h00
    rw [List.getD_cons_succ, List.getD_cons_succ] at hne
    rw [lexCmp3_cons, List.getD_cons_succ, List.getD_cons_succ]
    rw [show compare x y = Ordering.eq from Nat.compare_eq_eq.2 h00]
    show lexCmp3 xs ys = compare (xs.getD i 0) (ys.getD i 0)
    exact lexCmp3_first_diff xs ys i
      (fun j hj => by
        have h5 := hpre (j + 1) (by omega)
        rw [List.getD_cons_succ, List.getD_cons_succ] at h5
        exact h5)
      (by simp only [List.length_cons] at hx; omega)
      (by simp only [List.length_cons] at hy; omega) hne

/-- The word holding the values `[j*W, (j+1)*W)` (reversed index `j`, slot
`L-1-j`, any slot other than slot 0) is determined by the memberships it
encodes: if two well-formed states agree on all those values, the words are
equal. -/
theorem word_eq_of_agree (hW : 0 < W) (hWa : WF W N data) (hWb : WF W N other)
    (hN : 0 < N) (j : Nat) (hj1 : j + 1 < num_logical_blocks W N)
    (hagree : ∀ u, u < N → u / W = j →
      contains W N data u = contains W N other u) :
    data.getD (num_logical_blocks W N - 1 - j) 0 =
      other.getD (num_logical_blocks W N - 1 - j) 0 := by
  apply Nat.eq_of_testBit_eq
  intro k
  by_cases hk : k < W
  · have hLp : num_logical_blocks W N - 1 = (N - 1) / W := by
      rw [L_succ_pred hW hN]
      have h9 := Nat.zero_le ((N - 1) / W)
      omega
    have hLpred : (num_logical_blocks W N - 1) * W < N := by
      rw [hLp]
      have h1 := Nat.div_mul_le_self (N - 1) W
      omega
    have hjs : (j + 1) * W = j * W + W := Nat.succ_mul j W
    have hjle : (j + 1) * W ≤ (num_logical_blocks W N - 1) * W :=
      Nat.mul_le_mul_right W (by omega)
    have hu : j * W + (W - 1 - k) < N := by omega
    have hdiv : (j * W + (W - 1 - k)) / W = j := by
      rw [Nat.mul_comm j W, Nat.mul_add_div hW,
        Nat.div_eq_of_lt (show W - 1 - k < W by omega)]
      omega
    have hmod : (j * W + (W - 1 - k)) % W = W - 1 - k := by
      rw [Nat.mul_comm j W, Nat.mul_add_mod, Nat.mod_eq_of_lt (by omega)]
    have hca := contains_eq_testBit hW hu data
    have hcb := contains_eq_testBit hW hu other
    rw [hdiv, hmod, show W - 1 - (W - 1 - k) = k by omega] at hca hcb
    have h6 := hagree _ hu hdiv
    rw [hca, hcb] at h6
    exact h6
  · rw [Nat.testBit_lt_two_pow (lt_of_lt_of_le (WF_getD_lt hWa _)
        (Nat.pow_le_pow_right (by omega) (by omega))),
      Nat.testBit_lt_two_pow (lt_of_lt_of_le (WF_getD_lt hWb _)
        (Nat.pow_le_pow_right (by omega) (by omega)))]

/-- Numeric three-way comparison of two words that agree above bit `k` and
differ at bit `k`: the word holding bit `k` is the larger one.  With the
MSB-first value encoding this makes the container whose word holds the
smallest differing value compare as the smaller side of `other <=> this`. -/
theorem compare_words (W a b k : Nat) (hk : k < W)
    (ha : a < 2 ^ W) (hb : b < 2 ^ W)
    (hhigh : ∀ t, k < t → t < W → a.testBit t = b.testBit t)
    (hdk : a.testBit k ≠ b.testBit k) :
    (compare b a = Ordering.lt ↔ a.testBit k = true) ∧
    (compare b a = Ordering.gt ↔ b.testBit k = true) := by
  have hhigh' : ∀ t, k < t → b.testBit t = a.testBit t := by
    intro t ht
    by_cases htW : t < W
    · exact (hhigh t ht htW).symm
    · rw [Nat.testBit_lt_two_pow (lt_of_lt_of_le ha
          (Nat.pow_le_pow_right (by omega) (by omega))),
        Nat.testBit_lt_two_pow (lt_of_lt_of_le hb
          (Nat.pow_le_pow_right (by omega) (by omega)))]
  cases hat : a.testBit k
  · have hbt : b.testBit k = true := by
      cases hbt : b.testBit k
      · rw [hat, hbt] at hdk
        exact absurd rfl hdk
      · rfl
    have hab : a < b := Nat.lt_of_testBit k hat hbt
      (fun j hj => (hhigh' j hj).symm)
    have hgt : compare b a = Ordering.gt := Nat.compare_eq_gt.2 hab
    simp [hgt, hbt]
  · have hbt : b.testBit k = false := by
      cases hbt : b.testBit k
      · rfl
      · rw [hat, hbt] at hdk
        exact absurd rfl hdk
    have hab : b < a := Nat.lt_of_testBit k hbt hat (fun j hj => hhigh' j hj)
    have hlt : compare b a = Ordering.lt := Nat.compare_eq_lt.2 hab
    simp [hlt, hbt]

/-- `operator<=>` computes, in every block-count branch, the lexicographic
three-way comparison of the reversed word array of `other` against the
reversed word array of `this`. -/
theorem cmp_eq_lex (hW : 0 < W) (hL : 1 ≤ num_logical_blocks W N)
    (ha : data.length = num_storage_blocks W N)
    (hb : other.length = num_storage_blocks W N) :
    cmp W N data other = lexCmp3 other.reverse data.reverse := by
  have hst : num_storage_blocks W N = num_logical_blocks W N := by
    unfold num_storage_blocks
    omega
  unfold cmp
  dsimp only
  rw [if_neg (show ¬num_logical_blocks W N = 0 by omega)]
  by_cases h2 : num_logical_blocks W N ≤ 1
  · rw [if_pos h2]
    obtain ⟨a, rfl⟩ := List.length_eq_one.1 (show data.length = 1 by omega)
    obtain ⟨b, rfl⟩ := List.length_eq_one.1 (show other.length = 1 by omega)
    have e1 : [a].getD 0 0 = a := rfl
    have e2 : [b].getD 0 0 = b := rfl
    have e5 : [a].reverse = [a] := rfl
    have e6 : [b].reverse = [b] := rfl
    rw [e1, e2, e5, e6, lexCmp3_single]
  · rw [if_neg h2]
    by_cases h3 : num_logical_blocks W N = 2
    · rw [if_pos h3]
      obtain ⟨a0, a1, rfl⟩ := List.length_eq_two.1 (show data.length = 2 by omega)
      obtain ⟨b0, b1, rfl⟩ := List.length_eq_two.1 (show other.length = 2 by omega)
      have e1 : [a0, a1].getD 1 0 = a1 := rfl
      have e2 : [b0, b1].getD 1 0 = b1 := rfl
      have e3 : [a0, a1].getD 0 0 = a0 := rfl
      have e4 : [b0, b1].getD 0 0 = b0 := rfl
      have e5 : [a0, a1].reverse = [a1, a0] := rfl
      have e6 : [b0, b1].reverse = [b1, b0] := rfl
      rw [e1, e2, e3, e4, e5, e6, lexCmp3_cons]
      cases hcc : compare b1 a1
      · rfl
      · show compare b0 a0 = lexCmp3 [b0] [a0]
        rw [lexCmp3_single]
      · rfl
    · rw [if_neg h3]

theorem storage_eq_single (hlen : data.length = 1) : data = [data.getD 0 0] := by
  obtain ⟨a, rfl⟩ := List.length_eq_one.1 hlen
  rfl

/-- With zero logical blocks the single storage word is never written, so by
the invariant both states are the literal `[0]`. -/
theorem storage_zero_of_L_zero (hWF : WF W N data) (hInv : Inv W N data)
    (hL0 : num_logical_blocks W N = 0) : data = [0] := by
  have h2 := hInv.2 hL0
  have h3 : data.length = 1 := by
    rw [hWF.1]
    unfold num_storage_blocks
    omega
  have h4 := storage_eq_single h3
  rw [h2] at h4
  exact h4

theorem cmp_eq_iff (hW : 0 < W) (hWa : WF W N data) (hWb : WF W N other)
    (hIa : Inv W N data) (hIb : Inv W N other) :
    cmp W N data other = Ordering.eq ↔ data = other := by
  by_cases hL0 : num_logical_blocks W N = 0
  · have h1 := storage_zero_of_L_zero hWa hIa hL0
    have h4 := storage_zero_of_L_zero hWb hIb hL0
    unfold cmp
    dsimp only
    rw [if_pos hL0]
    simp [h1, h4]
  · have hL : 1 ≤ num_logical_blocks W N := by omega
    rw [cmp_eq_lex hW hL hWa.1 hWb.1,
      lexCmp3_eq_iff _ _ (by
        rw [List.length_reverse, List.length_reverse, hWa.1, hWb.1]),
      List.reverse_inj]
    exact eq_comm

theorem beq_iff (hW : 0 < W) (hWa : WF W N data) (hWb : WF W N other)
    (hIa : Inv W N data) (hIb : Inv W N other) :
    beq W N data other = true ↔ data = other := by
  have hst : num_storage_blocks W N = max (num_logical_blocks W N) 1 := rfl
  unfold beq
  dsimp only
  by_cases hL0 : num_logical_blocks W N = 0
  · have h1 := storage_zero_of_L_zero hWa hIa hL0
    have h4 := storage_zero_of_L_zero hWb hIb hL0
    rw [if_pos hL0]
    simp [h1, h4]
  · rw [if_neg hL0]
    have ha := hWa.1
    have hb := hWb.1
    by_cases h1 : num_logical_blocks W N ≤ 1
    · rw [if_pos h1]
      obtain ⟨a, rfl⟩ := List.length_eq_one.1 (show data.length = 1 by omega)
      obtain ⟨b, rfl⟩ := List.length_eq_one.1 (show other.length = 1 by omega)
      simp
    · rw [if_neg h1]
      by_cases h2 : num_logical_blocks W N = 2
      · rw [if_pos h2]
        obtain ⟨a0, a1, rfl⟩ :=
          List.length_eq_two.1 (show data.length = 2 by omega)
        obtain ⟨b0, b1, rfl⟩ :=
          List.length_eq_two.1 (show other.length = 2 by omega)
        simp
      · rw [if_neg h2]
        exact beq_iff_eq

/-- For well-formed states that first disagree at value `d`, the result of
`operator<=>` is decided by `d`: the container containing `d` is the
smaller one. -/
theorem cmp_first_diff (hW : 0 < W) (hWa : WF W N data) (hWb : WF W N other)
    (d : Nat) (hd : d < N)
    (hdiff : contains W N data d ≠ contains W N other d)
    (hmin : ∀ u, u < d → contains W N data u = contains W N other u) :
    (cmp W N data other = Ordering.lt ↔ contains W N data d = true) ∧
    (cmp W N data other = Ordering.gt ↔ contains W N other d = true) := by
  have hN : 0 < N := by omega
  have hL := L_pos hW hN
  have hst : num_storage_blocks W N = num_logical_blocks W N := by
    unfold num_storage_blocks
    omega
  have hla : data.length = num_logical_blocks W N := by rw [hWa.1, hst]
  have hlb : other.length = num_logical_blocks W N := by rw [hWb.1, hst]
  have hdW := div_W_lt_L hW hd
  have hdm := Nat.div_add_mod d W
  have hmm := Nat.mod_lt d hW
  have h0 := Nat.zero_le (d / W)
  have hmc : d / W * W = W * (d / W) := Nat.mul_comm _ _
  have hreva : ∀ j, j < num_logical_blocks W N →
      data.reverse.getD j 0 = data.getD (num_logical_blocks W N - 1 - j) 0 := by
    intro j hj
    rw [reverse_getD data j (by omega), hla]
  have hrevb : ∀ j, j < num_logical_blocks W N →
      other.reverse.getD j 0 =
        other.getD (num_logical_blocks W N - 1 - j) 0 := by
    intro j hj
    rw [reverse_getD other j (by omega), hlb]
  have hhigh : ∀ t, W - 1 - d % W < t → t < W →
      (data.getD (num_logical_blocks W N - 1 - d / W) 0).testBit t =
        (other.getD (num_logical_blocks W N - 1 - d / W) 0).testBit t := by
    intro t ht htW
    have hdiv : (d / W * W + (W - 1 - t)) / W = d / W := by
      rw [Nat.mul_comm (d / W) W, Nat.mul_add_div hW,
        Nat.div_eq_of_lt (show W - 1 - t < W by omega)]
      omega
    have hmod : (d / W * W + (W - 1 - t)) % W = W - 1 - t := by
      rw [Nat.mul_comm (d / W) W, Nat.mul_add_mod, Nat.mod_eq_of_lt (by omega)]
    have hu : d / W * W + (W - 1 - t) < d := by omega
    have hca := contains_eq_testBit hW
      (show d / W * W + (W - 1 - t) < N by omega) data
    have hcb := contains_eq_testBit hW
      (show d / W * W + (W - 1 - t) < N by omega) other
    rw [hdiv, hmod, show W - 1 - (W - 1 - t) = t by omega] at hca hcb
    have h6 := hmin _ hu
    rw [hca, hcb] at h6
    exact h6
  have hdk2 : (data.getD (num_logical_blocks W N - 1 - d / W) 0).testBit
        (W - 1 - d % W) ≠
      (other.getD (num_logical_blocks W N - 1 - d / W) 0).testBit
        (W - 1 - d % W) := by
    have hca := contains_eq_testBit hW hd data
    have hcb := contains_eq_testBit hW hd other
    rw [hca, hcb] at hdiff
    exact hdiff
  have hpre : ∀ j, j < d / W →
      other.reverse.getD j 0 = data.reverse.getD j 0 := by
    intro j hj
    rw [hrevb j (by omega), hreva j (by omega)]
    refine (word_eq_of_agree hW hWa hWb hN j (by omega) ?_).symm
    intro u hu hud
    refine hmin u ?_
    by_cases hcmp : u < d
    · exact hcmp
    · exfalso
      have h2 : d / W ≤ u / W := Nat.div_le_div_right (by omega)
      omega
  have hdne : other.reverse.getD (d / W) 0 ≠ data.reverse.getD (d / W) 0 := by
    rw [hrevb _ (by omega), hreva _ (by omega)]
    intro heq
    exact hdk2 (by rw [heq])
  have hlex := lexCmp3_first_diff other.reverse data.reverse (d / W) hpre
    (by rw [List.length_reverse]; omega) (by rw [List.length_reverse]; omega)
    hdne
  rw [cmp_eq_lex hW hL hWa.1 hWb.1, hlex, hrevb _ (by omega),
    hreva _ (by omega), contains_eq_testBit hW hd data,
    contains_eq_testBit hW hd other]
  exact compare_words W (data.getD (num_logical_blocks W N - 1 - d / W) 0)
    (other.getD (num_logical_blocks W N - 1 - d / W) 0) (W - 1 - d % W)
    (by omega) (WF_getD_lt hWa _) (WF_getD_lt hWb _) hhigh hdk2

/-- C3: refuted as stated.  With `W = 8`, `N = 2`, the states `[192]`
(members `{0, 1}`) and `[128]` (member `{0}`) are both well formed, and the
code's `operator<=>` orders `{0,1} < {0}` — but the lexicographic comparison
of the ascending element sequences `[0, 1]` and `[0]` orders `{0,1} > {0}`
(the shorter sequence, a strict prefix, is the smaller one).  The code's
order is the reverse of the one the specification describes. -/
theorem C3_counterexample :
    cmp 8 2 [192] [128] = Ordering.lt ∧
      spec_sequence_compare 8 2 [192] [128] = Ordering.gt ∧
      WF 8 2 [192] ∧ WF 8 2 [128] ∧ Inv 8 2 [192] ∧ Inv 8 2 [128] :=
  ⟨by decide, by decide, ⟨by decide, by decide⟩, ⟨by decide, by decide⟩,
    ⟨by decide, by decide⟩, ⟨by decide, by decide⟩⟩

/-- C3 (amended): for all well-formed same-capacity states, exactly one of
`A < B` (`cmp = lt`), `A == B` (`beq`), `A > B` (`cmp = gt`) holds, and
`==` coincides with equality of the stored words; but the order realised by
`operator<=>` is the reverse of the spec's sequence order: at the smallest
value `d` where the two membership functions disagree, the container that
CONTAINS `d` is the smaller one (the spec's ascending-sequence lexicographic
order would make it the larger one whenever the other sequence ends early,
and the smaller one otherwise — the two orders agree on neither convention
uniformly, see the counterexample). -/
theorem C3_ordering (W N : Nat) (data other : List Nat) (hW : 0 < W)
    (hWa : WF W N data) (hWb : WF W N other)
    (hIa : Inv W N data) (hIb : Inv W N other) :
    ((cmp W N data other = Ordering.lt ∨ beq W N data other = true ∨
        cmp W N data other = Ordering.gt) ∧
      ¬(cmp W N data other = Ordering.lt ∧ beq W N data other = true) ∧
      ¬(beq W N data other = true ∧ cmp W N data other = Ordering.gt) ∧
      ¬(cmp W N data other = Ordering.lt ∧
        cmp W N data other = Ordering.gt)) ∧
    (beq W N data other = true ↔ data = other) ∧
    (∀ d, d < N → contains W N data d ≠ contains W N other d →
      (∀ u, u < d → contains W N data u = contains W N other u) →
      ((cmp W N data other = Ordering.lt ↔ contains W N data d = true) ∧
        (cmp W N data other = Ordering.gt ↔
          contains W N other d = true))) := by
  have hbeq := beq_iff hW hWa hWb hIa hIb
  have hceq := cmp_eq_iff hW hWa hWb hIa hIb
  refine ⟨⟨?_, ?_, ?_, ?_⟩, hbeq, ?_⟩
  · cases hc : cmp W N data other
    · exact Or.inl rfl
    · exact Or.inr (Or.inl (hbeq.2 (hceq.1 hc)))
    · exact Or.inr (Or.inr rfl)
  · rintro ⟨h1, h2⟩
    have h3 := hceq.2 (hbeq.1 h2)
    rw [h3] at h1
    exact Ordering.noConfusion h1
  · rintro ⟨h2, h1⟩
    have h3 := hceq.2 (hbeq.1 h2)
    rw [h3] at h1
    exact Ordering.noConfusion h1
  · rintro ⟨h1, h2⟩
    rw [h1] at h2
    exact Ordering.noConfusion h2
  · intro d hd hdiff hmin
    exact cmp_first_diff hW hWa hWb d hd hdiff hmin

theorem C3_witness :
    (0 < 8 ∧ WF 8 10 [0, 128] ∧ WF 8 10 [0, 192] ∧
      Inv 8 10 [0, 128] ∧ Inv 8 10 [0, 192]) ∧
    (((cmp 8 10 [0, 128] [0, 192] = Ordering.lt ∨
        beq 8 10 [0, 128] [0, 192] = true ∨
        cmp 8 10 [0, 128] [0, 192] = Ordering.gt) ∧
      ¬(cmp 8 10 [0, 128] [0, 192] = Ordering.lt ∧
        beq 8 10 [0, 128] [0, 192] = true) ∧
      ¬(beq 8 10 [0, 128] [0, 192] = true ∧
        cmp 8 10 [0, 128] [0, 192] = Ordering.gt) ∧
      ¬(cmp 8 10 [0, 128] [0, 192] = Ordering.lt ∧
        cmp 8 10 [0, 128] [0, 192] = Ordering.gt)) ∧
    (beq 8 10 [0, 128] [0, 192] = true ↔ ([0, 128] : List Nat) = [0, 192]) ∧
    (∀ d, d < 10 →
      contains 8 10 [0, 128] d ≠ contains 8 10 [0, 192] d →
      (∀ u, u < d → contains 8 10 [0, 128] u = contains 8 10 [0, 192] u) →
      ((cmp 8 10 [0, 128] [0, 192] = Ordering.lt ↔
          contains 8 10 [0, 128] d = true) ∧
        (cmp 8 10 [0, 128] [0, 192] = Ordering.gt ↔
          contains 8 10 [0, 192] d = true)))) :=
  ⟨⟨by decide, ⟨by decide, by decide⟩, ⟨by decide, by decide⟩,
      ⟨by decide, by decide⟩, ⟨by decide, by decide⟩⟩,
    C3_ordering 8 10 [0, 128] [0, 192] (by decide) ⟨by decide, by decide⟩
      ⟨by decide, by decide⟩ ⟨by decide, by decide⟩ ⟨by decide, by decide⟩⟩


end Xstd
